import Mathlib

/-!
Verification development for the krama workflow engine.

This file shallowly embeds the step-orchestration core of the repository:
the template engine (`src/workflow/utils.ts`), the DAG model
(`src/toposort.ts` on top of the `dependency-graph` library), the step
executor (`src/workflow/StepExecutor.ts`) and the workflow orchestrator
(`src/workflow/WorkflowExecutor.ts`), and proves properties of the
embedding.

External collaborators that are not part of the repository sources
(the Mustache template renderer and the Temporal task substrate) are
modelled: Mustache interpolation from the specification's description of
rendering, and the substrate as an oracle assigning each step invocation
an outcome.  Recursive functions are written with explicit fuel so that
every definition reduces by kernel evaluation on concrete inputs.
-/

namespace Krama

/-- A JSON-like runtime value, as produced by the YAML loader and passed
through the template engine.  `vUndefined` models the JavaScript `undefined`
value that `resolvePath` produces for missing paths. -/
inductive Value where
  | vUndefined
  | vNull
  | vBool (b : Bool)
  | vNum (n : Int)
  | vStr (s : String)
  | vArr (elems : List Value)
  | vObj (fields : List (String × Value))

mutual

/-- Display form of a value, following the JavaScript string conversion
used by Mustache interpolation: `null`/`undefined` render as the empty
string, booleans and numbers by their literal form, arrays as
comma-joined elements, objects as `[object Object]`. -/
def displayString : Value → String
  | .vUndefined => ""
  | .vNull => ""
  | .vBool b => if b then "true" else "false"
  | .vNum n => toString n
  | .vStr s => s
  | .vArr xs => displayList xs
  | .vObj _ => "[object Object]"

/-- Display form of the elements of an array, comma-joined. -/
def displayList : List Value → String
  | [] => ""
  | [v] => displayString v
  | v :: vs => displayString v ++ "," ++ displayList vs

end

/-- Whitespace trimming, as JavaScript's `String.prototype.trim`. -/
def trimStr (s : String) : String :=
  String.mk (((s.data.dropWhile Char.isWhitespace).reverse.dropWhile
    Char.isWhitespace).reverse)

/-- Splitting on `.`, as JavaScript's `String.prototype.split('.')`:
accumulates the current segment and emits it at each dot. -/
def splitDotAux : List Char → List Char → List String
  | [], cur => [String.mk cur.reverse]
  | '.' :: rest, cur => String.mk cur.reverse :: splitDotAux rest []
  | c :: rest, cur => splitDotAux rest (c :: cur)

/-- Split a path into dot-separated segments. -/
def splitDots (s : String) : List String := splitDotAux s.data []

/-- Parse a string of decimal digits, as JavaScript array indexing by a
numeric string key. -/
def parseIndex (s : String) : Option Nat :=
  if s.data ≠ [] ∧ s.data.all (·.isDigit) then
    some (s.data.foldl (fun n c => n * 10 + (c.toNat - 48)) 0)
  else none

/-- One step of dot-path resolution, as in `resolvePath` of
`src/workflow/utils.ts`: objects are indexed by field name, arrays by a
numeral, everything else resolves to `undefined`. -/
def indexValue (v : Value) (part : String) : Value :=
  match v with
  | .vObj fields => (fields.lookup part).getD .vUndefined
  | .vArr xs =>
      match parseIndex part with
      | some i => xs.getD i .vUndefined
      | none => .vUndefined
  | _ => .vUndefined

/-- Walk a list of path segments through a value, returning `vUndefined` as
soon as the current value is not indexable (mirrors the early
`return undefined` of `resolvePath`). -/
def resolveParts : Value → List String → Value
  | v, [] => v
  | .vObj fields, p :: ps => resolveParts (indexValue (.vObj fields) p) ps
  | .vArr xs, p :: ps => resolveParts (indexValue (.vArr xs) p) ps
  | _, _ :: _ => .vUndefined

/-- Resolve a dot-notation path in a value, as `resolvePath(obj, path)`
in `src/workflow/utils.ts`. -/
def resolvePath (v : Value) (path : String) : Value :=
  resolveParts v (splitDots path)

/-- Scan for the closing `}}` of an interpolation tag: returns the
characters before the first `}}` and the characters after it. -/
def splitTag : List Char → Option (List Char × List Char)
  | [] => none
  | c :: rest =>
      if c = '}' ∧ rest.head? = some '}' then some ([], rest.tail)
      else
        match splitTag rest with
        | some (content, r) => some (c :: content, r)
        | none => none

/-- Modelled from the spec: Mustache interpolation rendering.  The spec
says a mixed-text template "renders each resolved value to its string
form and splices it into the surrounding text" and that a missing path
"renders as empty string inside mixed-text templates".  Fuel-indexed
scan over the character list. -/
def renderAux (ctx : Value) : Nat → List Char → List Char
  | 0, _ => []
  | _ + 1, [] => []
  | fuel + 1, c :: rest =>
      if c = '{' ∧ rest.head? = some '{' then
        match splitTag rest.tail with
        | some (content, rest2) =>
            (displayString (resolvePath ctx (trimStr (String.mk content)))).data
              ++ renderAux ctx fuel rest2
        | none => '{' :: '{' :: renderAux ctx fuel rest.tail
      else c :: renderAux ctx fuel rest

/-- Modelled from the spec: `Mustache.render` restricted to
interpolation tags, the only Mustache feature the engine's templates
use. -/
def mustacheRender (template : String) (ctx : Value) : String :=
  String.mk (renderAux ctx (template.data.length + 1) template.data)

/-- The single-tag test of `renderValue`: the regular expression
`^\{\{([^}]+)\}\}$` matches exactly the strings that consist of `{{`,
one or more characters none of which is `}`, then `}}`.  Returns the
captured content. -/
def singleTagContent (s : String) : Option String :=
  match s.data with
  | '{' :: '{' :: rest =>
      match rest.reverse with
      | '}' :: '}' :: innerRev =>
          let inner := innerRev.reverse
          if inner ≠ [] ∧ ¬ inner.contains '}' then some (String.mk inner)
          else none
      | _ => none
  | _ => none

mutual

/-- Recursive template rendering of a value tree, as
`renderValue(value, ctx)` in `src/workflow/utils.ts`: a string that is
entirely one interpolation tag resolves to the referenced value with its
native type; any other string goes through Mustache rendering; arrays
and objects recurse; other leaves pass through. -/
def renderValue : Value → Value → Value
  | .vStr s, ctx =>
      match singleTagContent s with
      | some content => resolvePath ctx (trimStr content)
      | none => .vStr (mustacheRender s ctx)
  | .vArr xs, ctx => .vArr (renderValueList xs ctx)
  | .vObj fields, ctx => .vObj (renderValueFields fields ctx)
  | v, _ => v

/-- Template rendering mapped over the elements of an array. -/
def renderValueList : List Value → Value → List Value
  | [], _ => []
  | v :: vs, ctx => renderValue v ctx :: renderValueList vs ctx

/-- Template rendering mapped over the values of an object's fields. -/
def renderValueFields : List (String × Value) → Value → List (String × Value)
  | [], _ => []
  | (k, v) :: kvs, ctx => (k, renderValue v ctx) :: renderValueFields kvs ctx

end

/-- Status of a finished step, from `StepResult` in
`src/types/core.ts`. -/
inductive Status where
  | completed
  | failed
  | skipped
deriving DecidableEq

/-- Result of a workflow step execution (`StepResult`). -/
structure StepResult where
  id : String
  status : Status
  output : Option Value
  error : Option String
  attempt : Nat

/-- Kind of a workflow step (`StepType`). -/
inductive StepType where
  | activity
  | signal
  | code
deriving DecidableEq

/-- A step definition (`StepDefinition` in `src/types/core.ts`),
restricted to the fields the orchestration core reads. -/
structure Step where
  id : String
  type : Option StepType
  activity : Option String
  code : Option String
  dependsOn : List String
  input : Option Value
  when : Option String

/-- Build the Mustache template context from workflow inputs and the
results recorded so far, as `buildTemplateContext` in
`src/workflow/utils.ts`: `{ inputs, step: { id: { result: output } } }`,
exposing each recorded step's output (absent outputs appear as
`undefined`, as in JavaScript). -/
def buildTemplateContext (inputs : List (String × Value))
    (results : List (String × StepResult)) : Value :=
  .vObj [("inputs", .vObj inputs),
    ("step", .vObj (results.map (fun kv =>
      (kv.1, Value.vObj [("result", kv.2.output.getD .vUndefined)]))))]

/-- Evaluate a `when` condition, as `evaluateCondition` in
`src/workflow/utils.ts`: render it with Mustache, trim, and treat
exactly `""`, `"false"` and `"0"` as false. -/
def evaluateCondition (condition : String) (ctx : Value) : Bool :=
  let rendered := trimStr (mustacheRender condition ctx)
  rendered != "" && rendered != "false" && rendered != "0"

/-- Errors raised by DAG construction and ordering, the `GraphError`
taxonomy of the spec: `WorkflowDAG`'s constructor throws on duplicate
ids and unknown dependencies, and `overallOrder` of the
`dependency-graph` library throws `DepGraphCycleError` on a cycle. -/
inductive GraphError where
  | duplicateStepId (id : String)
  | unknownDependency (stepId : String) (depId : String)
  | cyclicDependency (path : List String)
deriving DecidableEq

/-- The dependency graph state of the `dependency-graph` library's
`DepGraph`: node names in insertion order, per-node step data,
outgoing edges (the node's dependencies) and incoming edges (the
node's dependants), both in insertion order. -/
structure Dag where
  nodes : List String
  data : List (String × Step)
  outgoing : List (String × List String)
  incoming : List (String × List String)

/-- Outgoing edges (dependencies) of a node. -/
def outOf (g : Dag) (n : String) : List String :=
  (g.outgoing.lookup n).getD []

/-- Incoming edges (dependants) of a node. -/
def inOf (g : Dag) (n : String) : List String :=
  (g.incoming.lookup n).getD []

/-- Append `x` to the edge list of key `k` unless already present, as
`addDependency` of the `dependency-graph` library does for each of the
two edge maps. -/
def pushEdge (l : List (String × List String)) (k x : String) :
    List (String × List String) :=
  l.map (fun p => if p.1 = k then (p.1, if x ∈ p.2 then p.2 else p.2 ++ [x]) else p)

/-- First constructor pass of `WorkflowDAG` (`src/toposort.ts`): check
for duplicate ids and add every step as a node. -/
def addNodes : List Step → Dag → Except GraphError Dag
  | [], g => .ok g
  | step :: rest, g =>
      if step.id ∈ g.nodes then .error (.duplicateStepId step.id)
      else addNodes rest
        { nodes := g.nodes ++ [step.id]
          data := g.data ++ [(step.id, step)]
          outgoing := g.outgoing ++ [(step.id, [])]
          incoming := g.incoming ++ [(step.id, [])] }

/-- Add a list of `(stepId, depId)` dependency pairs in order: check
the target exists, then add the two edge entries as `addDependency`
does. -/
def addEdgeList : List (String × String) → Dag → Except GraphError Dag
  | [], g => .ok g
  | (sid, depId) :: rest, g =>
      if depId ∈ g.nodes then
        addEdgeList rest
          { g with
            outgoing := pushEdge g.outgoing sid depId
            incoming := pushEdge g.incoming depId sid }
      else .error (.unknownDependency sid depId)

/-- Second constructor pass of `WorkflowDAG`: for every step in order
and every `dependsOn` entry in order, check the target exists and add
the dependency edge. -/
def addEdges (steps : List Step) (g : Dag) : Except GraphError Dag :=
  addEdgeList (steps.flatMap (fun s => s.dependsOn.map (fun d => (s.id, d)))) g

/-- Build the validated dependency graph from a step list, as the
`WorkflowDAG` constructor: duplicate ids and unknown dependsOn targets
are fatal. -/
def buildDag (steps : List Step) : Except GraphError Dag := do
  let g ← addNodes steps ⟨[], [], [], []⟩
  addEdges steps g

/-- Outcome of the library's depth-first searches: a successful visit
returning the visited set and the post-order result list, a detected
cycle, or fuel exhaustion (an artefact of the embedding, proved
unreachable for the fuel bound used). -/
inductive DfsOut where
  | ok (visited acc : List String)
  | cycle (path : List String)
  | fuelOut
deriving DecidableEq

/-- The iterative depth-first search `createDFS` of the
`dependency-graph` library, written recursively: process a worklist of
nodes; an already-visited node is skipped, a node on the current path
is a cycle, otherwise the node's outgoing edges are fully visited
before the node is appended to the post-order result. -/
def visitMany (g : Dag) : Nat → List String → List String → List String →
    List String → DfsOut
  | _, _, visited, acc, [] => .ok visited acc
  | 0, _, _, _, _ :: _ => .fuelOut
  | fuel + 1, inPath, visited, acc, n :: rest =>
      if n ∈ visited then visitMany g fuel inPath visited acc rest
      else if n ∈ inPath then .cycle ((n :: inPath).reverse)
      else
        match visitMany g fuel (n :: inPath) visited acc (outOf g n) with
        | .ok v a => visitMany g fuel inPath (n :: v) (a ++ [n]) rest
        | e => e

/-- Combined weight of the nodes neither visited nor on the current
path: one plus the out-degree of each. -/
def unseenWeight (g : Dag) (visited inPath : List String) : Nat :=
  ((g.nodes.filter (fun n => n ∉ visited ∧ n ∉ inPath)).map
    (fun n => 1 + (outOf g n).length)).sum

/-- Potential of a search state: worklist length plus the unseen
weight.  Used to show the fuel bound below is sufficient. -/
def potential (g : Dag) (visited inPath work : List String) : Nat :=
  work.length + unseenWeight g visited inPath + 1

/-- Fuel that always suffices for the depth-first searches over `g`. -/
def dfsFuel (g : Dag) : Nat := potential g [] [] g.nodes

/-- The execution order, as `WorkflowDAG.getExecutionOrder` delegating
to `overallOrder` of the `dependency-graph` library: first a
cycle-check DFS over every node, then a DFS from the nodes that have no
dependants, whose post-order result is the execution order. -/
def overallOrderE (g : Dag) : Except GraphError (List String) :=
  if g.nodes.isEmpty then .ok []
  else
    match visitMany g (dfsFuel g) [] [] [] g.nodes with
    | .cycle p => .error (.cyclicDependency p)
    | .fuelOut => .error (.cyclicDependency [])
    | .ok _ _ =>
        match visitMany g (dfsFuel g) [] [] []
          (g.nodes.filter (fun n => (inOf g n).isEmpty)) with
        | .ok _ acc => .ok acc
        | .cycle p => .error (.cyclicDependency p)
        | .fuelOut => .error (.cyclicDependency [])

/-- Transitive dependency set of one step in depth-first order, as
`WorkflowDAG.getDependencies` delegating to `dependenciesOf`: the DFS
post-order from the node, with the node itself removed.  A cycle makes
the library throw, which the step executor's catch turns into a failure
message. -/
def depsOf (g : Dag) (stepId : String) : Except String (List String) :=
  if stepId ∈ g.nodes then
    match visitMany g (dfsFuel g) [] [] [] [stepId] with
    | .ok _ acc => .ok (acc.erase stepId)
    | .cycle p => .error ("Dependency Cycle Found: " ++ " -> ".intercalate p)
    | .fuelOut => .error "Dependency Cycle Found: "
  else .ok []

/-- Step lookup, as `WorkflowDAG.getStep`. -/
def getStep (g : Dag) (stepId : String) : Option Step :=
  (g.data.lookup stepId)

/-- The direct dependency relation of the graph: `depEdge g d s` holds
when step `s` declares a (deduplicated) dependency on step `d`. -/
def depEdge (g : Dag) (d s : String) : Prop := d ∈ outOf g s

/-- Acyclicity of the dependency graph: no step transitively depends on
itself. -/
def Acyclic (g : Dag) : Prop :=
  ∀ n, ¬ Relation.TransGen (depEdge g) n n

/-- An external event delivered into a running workflow: the `cancel`
signal or a `step` signal carrying a payload for one step id
(`cancelSignal` / `stepSignal` in `src/workflow/WorkflowExecutor.ts`). -/
inductive Sig where
  | cancel
  | deliver (stepId : String) (payload : Value)

/-- Mutable state of one workflow run, as held by `WorkflowExecutor`:
the result map (the executor's `results` and `context.results` are
written identically by `saveResult` and are modelled once), the
signal-payload inbox `signalResults`, the cancellation flag, and the
schedule of event batches the environment will deliver at successive
wake-up points of the workflow. -/
structure RunState where
  results : List (String × StepResult)
  signalResults : List (String × Value)
  isCancelled : Bool
  schedule : List (List Sig)

/-- JavaScript object assignment `obj[k] = v` on an association list:
replace the value at an existing key in place, else append. -/
def insertOrReplace (l : List (String × α)) (k : String) (v : α) :
    List (String × α) :=
  if l.any (fun p => p.1 == k) then
    l.map (fun p => if p.1 == k then (p.1, v) else p)
  else l ++ [(k, v)]

/-- Apply one external event, as the two `setHandler` handlers: `cancel`
sets the flag (idempotently), a step signal stores the payload under the
step id, overwriting any previous payload for that id. -/
def applySig (st : RunState) : Sig → RunState
  | .cancel => { st with isCancelled := true }
  | .deliver stepId payload =>
      { st with signalResults := insertOrReplace st.signalResults stepId payload }

/-- Apply a batch of events in order. -/
def applyBatch (st : RunState) (b : List Sig) : RunState := b.foldl applySig st

/-- The payload of the last delivery to a given step id within a batch
of events, if any: since each delivery overwrites the stored payload,
this is what the inbox holds for that id after the batch. -/
def lastDeliveryTo (b : List Sig) (stepId : String) : Option Value :=
  b.foldl (fun acc e =>
    match e with
    | .deliver i p => if i = stepId then some p else acc
    | .cancel => acc) none

/-- At a wake-up point, apply the next scheduled batch of events (no-op
when nothing more arrives). -/
def applyNextBatch (st : RunState) : RunState :=
  match st.schedule with
  | [] => st
  | b :: rest => applyBatch { st with schedule := rest } b

/-- The wait of `executeSignalStep`:
`condition(() => this.isCancelled || stepId in this.signalResults)`.
Re-check the predicate after each scheduled batch of events; return
`none` if the schedule is exhausted with the predicate still false (the
workflow would stay suspended).  Fuel-indexed; the fuel used always
covers the schedule length. -/
def signalWaitAux (stepId : String) : Nat → RunState → Option RunState
  | fuel, st =>
      if st.isCancelled || (st.signalResults.lookup stepId).isSome then some st
      else
        match st.schedule, fuel with
        | [], _ => none
        | _ :: _, 0 => none
        | b :: rest, f + 1 =>
            signalWaitAux stepId f (applyBatch { st with schedule := rest } b)

/-- Suspend until cancellation or a payload for this id. -/
def signalWait (stepId : String) (st : RunState) : Option RunState :=
  signalWaitAux stepId st.schedule.length st

/-- Fixed reason recorded when cancellation wins the signal race. -/
def cancelledReason : String :=
  "Skipped because workflow was cancelled before signal was received"

/-- Execute a signal-type step, as
`WorkflowExecutor.executeSignalStep`: wait for cancellation or a
payload; cancellation without a stored payload yields a skipped result
with a fixed reason, otherwise the stored payload becomes the output. -/
def executeSignalStep (st : RunState) (stepId : String) (r0 : StepResult) :
    Option (RunState × StepResult) :=
  (signalWait stepId st).map (fun st' =>
    if st'.isCancelled ∧ (st'.signalResults.lookup stepId).isNone then
      (st', { r0 with status := .skipped, error := some cancelledReason })
    else
      (st', { r0 with output := st'.signalResults.lookup stepId }))

/-- String form of a status, as interpolated into skip reasons. -/
def statusStr : Status → String
  | .completed => "completed"
  | .failed => "failed"
  | .skipped => "skipped"

/-- The fresh result record `executeStep` creates before running a
step. -/
def initResult (stepId : String) : StepResult :=
  ⟨stepId, .completed, none, none, 0⟩

/-- Check whether a step must be skipped because a transitive dependency
failed or was skipped, as `StepExecutor.checkDependencies`: find the
first such dependency in the set's iteration order and name it and its
status in the reason. -/
def checkDependencies (deps : List String)
    (results : List (String × StepResult)) : Option String :=
  match deps.find? (fun depId =>
      match results.lookup depId with
      | some r => r.status == .failed || r.status == .skipped
      | none => false) with
  | some d =>
      some ("Skipped due to "
        ++ (((results.lookup d).map (fun r => statusStr r.status)).getD "undefined")
        ++ " dependency: " ++ d)
  | none => none

/-- Check whether a step's `when` condition is declared and unmet, as
`StepExecutor.checkCondition`. -/
def checkCondition (step : Step) (ctx : Value) : Option String :=
  match step.when with
  | none => none
  | some w =>
      if evaluateCondition w ctx then none
      else some ("Skipped due to unmet condition: " ++ w)

/-- Render the step's declared input against the template context, as
`StepExecutor.prepareInput`. -/
def prepareInput (step : Step) (ctx : Value) : Value :=
  match step.input with
  | none => .vObj []
  | some v => renderValue v ctx

/-- Record a step result, as `WorkflowExecutor.saveResult` (which
writes `results` and `context.results` identically). -/
def saveResult (st : RunState) (stepId : String) (r : StepResult) : RunState :=
  { st with results := insertOrReplace st.results stepId r }

/-- Outcome of one substrate invocation for a step id: the settled
result, or a terminal failure message.  Models the external Temporal
activity proxy used for activity- and code-kind steps. -/
def Oracle : Type := String → Except String Value

/-- Execute a single step, as `WorkflowExecutor.executeStep`: look the
step up; check transitive dependencies (a skip is saved immediately and
again by the `finally` block); check the `when` condition (likewise);
render the input; dispatch on the step kind; any raised error becomes a
failed result; the `finally` block saves the result.  Returns the new
run state together with the trace of `saveResult` calls, or `none` when
a signal wait never wakes. -/
def execStep (g : Dag) (oracle : Oracle) (inputs : List (String × Value))
    (st : RunState) (stepId : String) :
    Option (RunState × List (String × StepResult)) :=
  match getStep g stepId with
  | none => some (st, [])
  | some step =>
      let r0 := initResult stepId
      match depsOf g stepId with
      | .error e =>
          let r := { r0 with status := .failed, error := some e }
          some (saveResult st stepId r, [(stepId, r)])
      | .ok deps =>
          match checkDependencies deps st.results with
          | some reason =>
              let r := { r0 with status := .skipped, error := some reason }
              some (saveResult (saveResult st stepId r) stepId r,
                [(stepId, r), (stepId, r)])
          | none =>
              let ctx := buildTemplateContext inputs st.results
              match checkCondition step ctx with
              | some reason =>
                  let r := { r0 with status := .skipped, error := some reason }
                  some (saveResult (saveResult st stepId r) stepId r,
                    [(stepId, r), (stepId, r)])
              | none =>
                  let _activityInput := prepareInput step ctx
                  match step.type with
                  | some .signal =>
                      match executeSignalStep st stepId r0 with
                      | none => none
                      | some (st', r) =>
                          some (saveResult st' stepId r, [(stepId, r)])
                  | some .code =>
                      match step.code with
                      | none =>
                          let r := { r0 with
                            status := .failed
                            error := some ("Step '" ++ stepId
                              ++ "' is of type 'code' but missing 'code' field") }
                          some (saveResult st stepId r, [(stepId, r)])
                      | some _ =>
                          match oracle stepId with
                          | .ok v =>
                              let r := { r0 with output := some v }
                              some (saveResult st stepId r, [(stepId, r)])
                          | .error e =>
                              let r := { r0 with
                                status := .failed
                                error := some e }
                              some (saveResult st stepId r, [(stepId, r)])
                  | _ =>
                      match step.activity with
                      | none =>
                          let r := { r0 with
                            status := .failed
                            error := some ("Invalid activity name for step '"
                              ++ stepId ++ "'") }
                          some (saveResult st stepId r, [(stepId, r)])
                      | some _ =>
                          match oracle stepId with
                          | .ok v =>
                              let r := { r0 with output := some v }
                              some (saveResult st stepId r, [(stepId, r)])
                          | .error e =>
                              let r := { r0 with
                                status := .failed
                                error := some e }
                              some (saveResult st stepId r, [(stepId, r)])

/-- The orchestrator loop of `WorkflowExecutor.execute`: for each id in
execution order, observe newly arrived events, stop early if
cancellation is set (remaining ids receive no result at all), otherwise
run the step and record its result before advancing.  Accumulates the
trace of `saveResult` calls. -/
def runLoop (g : Dag) (oracle : Oracle) (inputs : List (String × Value)) :
    List String → RunState → List (String × StepResult) →
    Option (RunState × List (String × StepResult))
  | [], st, tr => some (st, tr)
  | stepId :: rest, st, tr =>
      let st1 := applyNextBatch st
      if st1.isCancelled then some (st1, tr)
      else
        match execStep g oracle inputs st1 stepId with
        | none => none
        | some (st2, tr2) => runLoop g oracle inputs rest st2 (tr ++ tr2)

/-- Initial run state: empty result map and inbox, cancellation clear,
with the environment's event schedule. -/
def initState (schedule : List (List Sig)) : RunState :=
  ⟨[], [], false, schedule⟩

/-- A full run: build and validate the graph (the `WorkflowExecutor`
constructor), compute the execution order (start of `execute`), then
drive the loop.  Graph errors abort before any step executes; the inner
`Option` is `none` when a signal wait never wakes; otherwise the run
yields the final result map and the trace of `saveResult` calls. -/
def execute (steps : List Step) (inputs : List (String × Value))
    (schedule : List (List Sig)) (oracle : Oracle) :
    Except GraphError (Option (List (String × StepResult) ×
      List (String × StepResult))) := do
  let g ← buildDag steps
  let order ← overallOrderE g
  pure ((runLoop g oracle inputs order (initState schedule) []).map
    (fun p => (p.1.results, p.2)))

/-! ### Association list lemmas -/

theorem lookup_cons_eq {α : Type _} (p : String × α) (rest : List (String × α))
    (k : String) (h : k = p.1) : List.lookup k (p :: rest) = some p.2 := by
  simp [List.lookup, h]

theorem lookup_cons_ne {α : Type _} (p : String × α) (rest : List (String × α))
    (k : String) (h : k ≠ p.1) : List.lookup k (p :: rest) = List.lookup k rest := by
  simp only [List.lookup]
  rw [(by simpa using h : (k == p.1) = false)]

theorem lookup_insertOrReplace_self {α : Type _} (l : List (String × α))
    (k : String) (v : α) : (insertOrReplace l k v).lookup k = some v := by
  unfold insertOrReplace
  split
  · next h =>
    induction l with
    | nil => simp at h
    | cons p rest ih =>
      simp only [List.map_cons]
      by_cases hk : p.1 = k
      · rw [if_pos (by simp [hk])]
        exact lookup_cons_eq _ _ _ (by simp [hk])
      · rw [if_neg (by simp [hk])]
        rw [lookup_cons_ne _ _ _ (fun he => hk (he.symm))]
        refine ih ?_
        simp only [List.any_cons, Bool.or_eq_true_iff] at h
        rcases h with h1 | h2
        · exact absurd (by simpa using h1) hk
        · exact h2
  · next h =>
    induction l with
    | nil => simp [List.lookup]
    | cons p rest ih =>
      simp only [List.any_cons, Bool.or_eq_true_iff, not_or] at h
      rw [List.cons_append, lookup_cons_ne _ _ _ (fun he => h.1 (by simp [he.symm]))]
      exact ih h.2

theorem lookup_map_replace {α : Type _} (l : List (String × α))
    (k k' : String) (v : α) (hne : k' ≠ k) :
    (l.map (fun p => if p.1 == k then (p.1, v) else p)).lookup k' = l.lookup k' := by
  induction l with
  | nil => simp
  | cons p rest ih =>
    simp only [List.map_cons]
    by_cases hk : p.1 = k
    · rw [if_pos (by simp [hk])]
      rw [lookup_cons_ne _ _ _ (by simpa using fun he => hne (he.trans hk)),
        lookup_cons_ne _ _ _ (fun he => hne (he.trans hk))]
      exact ih
    · rw [if_neg (by simp [hk])]
      by_cases hk' : k' = p.1
      · rw [lookup_cons_eq _ _ _ hk', lookup_cons_eq _ _ _ hk']
      · rw [lookup_cons_ne _ _ _ hk', lookup_cons_ne _ _ _ hk']
        exact ih

theorem lookup_append_single {α : Type _} (l : List (String × α))
    (k k' : String) (v : α) (hne : k' ≠ k) :
    (l ++ [(k, v)]).lookup k' = l.lookup k' := by
  induction l with
  | nil =>
    rw [List.nil_append, lookup_cons_ne _ _ _ (by simpa using hne)]
  | cons p rest ih =>
    rw [List.cons_append]
    by_cases hk' : k' = p.1
    · rw [lookup_cons_eq _ _ _ hk', lookup_cons_eq _ _ _ hk']
    · rw [lookup_cons_ne _ _ _ hk', lookup_cons_ne _ _ _ hk']
      exact ih

theorem lookup_insertOrReplace_other {α : Type _} (l : List (String × α))
    (k k' : String) (v : α) (hne : k' ≠ k) :
    (insertOrReplace l k v).lookup k' = l.lookup k' := by
  unfold insertOrReplace
  split
  · exact lookup_map_replace l k k' v hne
  · exact lookup_append_single l k k' v hne

/-! ### Claim C3: condition evaluation -/

/-- Claim C3.  For every condition expression and template context,
`evaluateCondition` renders the expression to a string, trims it, and
returns false exactly when the trimmed result is `""`, `"false"` or
`"0"`; every other rendered value — including `"true"`, `"1"` and
`"No"` — yields true. -/
theorem evaluateCondition_falsy_set :
    (∀ cond ctx, evaluateCondition cond ctx = false ↔
      (trimStr (mustacheRender cond ctx) = "" ∨
       trimStr (mustacheRender cond ctx) = "false" ∨
       trimStr (mustacheRender cond ctx) = "0")) ∧
    evaluateCondition "true" (.vObj []) = true ∧
    evaluateCondition "1" (.vObj []) = true ∧
    evaluateCondition "No" (.vObj []) = true ∧
    evaluateCondition "" (.vObj []) = false ∧
    evaluateCondition " false " (.vObj []) = false ∧
    evaluateCondition "0" (.vObj []) = false := by
  refine ⟨fun cond ctx => ?_, rfl, rfl, rfl, rfl, rfl, rfl⟩
  simp only [evaluateCondition, Bool.and_eq_false_iff, bne_eq_false_iff_eq]
  tauto

/-- Witness for C3: the general equivalence applied at a concrete
condition and context. -/
theorem evaluateCondition_falsy_set_witness :
    evaluateCondition "{{inputs.missing}}" (.vObj [("inputs", .vObj [])]) = false :=
  (evaluateCondition_falsy_set.1 "{{inputs.missing}}"
    (.vObj [("inputs", .vObj [])])).mpr (Or.inl rfl)

/-! ### Claim C4: template rendering of value trees -/

theorem singleTagContent_iff (s c : String) :
    singleTagContent s = some c ↔
      (s = "\x7b\x7b" ++ c ++ "\x7d\x7d" ∧ c ≠ "" ∧ ¬ c.data.contains '}') := by
  obtain ⟨cs⟩ := s
  obtain ⟨cc⟩ := c
  constructor
  · intro h
    unfold singleTagContent at h
    split at h
    · next rest hdata =>
      split at h
      · next innerRev hrev =>
        dsimp only at h
        split at h
        · next hcond =>
          simp only [Option.some.injEq] at h
          have hrest : rest = innerRev.reverse ++ ['}', '}'] := by
            have := congrArg List.reverse hrev
            simpa using this
          have hcc : cc = innerRev.reverse := by
            have := congrArg String.data h
            simpa using this.symm
          have hcs : cs = '{' :: '{' :: (cc ++ ['}', '}']) := by
            have : cs = '{' :: '{' :: rest := hdata
            rw [this, hrest, hcc]
          subst hcs
          refine ⟨rfl, ?_, ?_⟩
          · intro hemp
            have : cc = [] := by simpa using congrArg String.data hemp
            rw [hcc] at this
            exact hcond.1 (by simpa using this)
          · intro hcon
            rw [hcc] at hcon
            exact hcond.2 (by simpa using hcon)
        · exact absurd h (by simp)
      · exact absurd h (by simp)
    · exact absurd h (by simp)
  · rintro ⟨hs, hne, hcon⟩
    have hdata : cs = '{' :: '{' :: (cc ++ ['}', '}']) := by
      have := congrArg String.data hs
      simpa using this
    subst hdata
    have hcc : cc ≠ [] := by
      intro h
      exact hne (by simp [h])
    unfold singleTagContent
    split
    · next rest hdata2 =>
      have hrest : rest = cc ++ ['}', '}'] := by
        have := hdata2
        simp only [List.cons.injEq] at this
        exact this.2.2.symm
      subst hrest
      split
      · next innerRev hrev =>
        have hinner : innerRev = cc.reverse := by
          have h1 : (cc ++ ['}', '}']).reverse = '}' :: '}' :: cc.reverse := by
            simp
          rw [h1] at hrev
          simp only [List.cons.injEq] at hrev
          exact hrev.2.2.symm
        subst hinner
        dsimp only
        rw [if_pos ⟨by simpa using hcc, by simpa using hcon⟩]
        simp
      · next hfail =>
        exfalso
        exact hfail cc.reverse (by simp)
    · next hfail =>
      exact absurd (hfail (cc ++ ['}', '}']) rfl) not_false

theorem splitTag_spec (p rest : List Char) (hp : '}' ∉ p) :
    splitTag (p ++ '}' :: '}' :: rest) = some (p, rest) := by
  induction p with
  | nil =>
    simp [splitTag]
  | cons c p' ih =>
    have hc : c ≠ '}' := fun h => hp (h ▸ List.mem_cons_self c p')
    have hp' : '}' ∉ p' := fun h => hp (List.mem_cons_of_mem c h)
    rw [List.cons_append]
    unfold splitTag
    rw [if_neg (fun hand => hc hand.1)]
    rw [ih hp']

theorem splitTag_length (cs content rest : List Char)
    (h : splitTag cs = some (content, rest)) :
    cs.length = content.length + rest.length + 2 := by
  induction cs generalizing content rest with
  | nil => simp [splitTag] at h
  | cons c cs' ih =>
    unfold splitTag at h
    split at h
    · next hand =>
      simp only [Option.some.injEq, Prod.mk.injEq] at h
      obtain ⟨hc, hr⟩ := h
      cases cs' with
      | nil => simp at hand
      | cons c2 rest2 =>
        simp only [List.head?_cons, Option.some.injEq] at hand
        subst hc
        simp only [List.tail_cons] at hr
        subst hr
        simp
    · split at h
      · next content' rest' heq =>
        simp only [Option.some.injEq, Prod.mk.injEq] at h
        obtain ⟨hc, hr⟩ := h
        subst hc
        subst hr
        have := ih _ _ heq
        simp [this]
        omega
      · exact absurd h (by simp)

theorem renderAux_fuel_stable (ctx : Value) :
    ∀ f1 f2 cs, cs.length ≤ f1 → cs.length ≤ f2 →
      renderAux ctx f1 cs = renderAux ctx f2 cs := by
  intro f1
  induction f1 with
  | zero =>
    intro f2 cs h1 _
    have : cs = [] := List.length_eq_zero.mp (Nat.le_zero.mp h1)
    subst this
    cases f2 <;> rfl
  | succ a ih =>
    intro f2 cs h1 h2
    cases cs with
    | nil => cases f2 <;> rfl
    | cons c rest =>
      cases f2 with
      | zero => simp at h2
      | succ b =>
        unfold renderAux
        by_cases hc : c = '{' ∧ rest.head? = some '{'
        · rw [if_pos hc, if_pos hc]
          cases hsp : splitTag rest.tail with
          | some pr =>
            obtain ⟨content, rest2⟩ := pr
            have hlen : rest.tail.length = content.length + rest2.length + 2 :=
              splitTag_length _ _ _ hsp
            have hrt : rest.tail.length ≤ rest.length := by
              cases rest <;> simp
            have hr2a : rest2.length ≤ a := by
              simp only [List.length_cons] at h1
              omega
            have hr2b : rest2.length ≤ b := by
              simp only [List.length_cons] at h2
              omega
            dsimp only
            rw [ih b rest2 hr2a hr2b]
          | none =>
            have hta : rest.tail.length ≤ a := by
              cases rest with
              | nil => simp
              | cons x xs =>
                simp only [List.length_cons] at h1
                simp only [List.tail_cons]
                omega
            have htb : rest.tail.length ≤ b := by
              cases rest with
              | nil => simp
              | cons x xs =>
                simp only [List.length_cons] at h2
                simp only [List.tail_cons]
                omega
            dsimp only
            rw [ih b rest.tail hta htb]
        · rw [if_neg hc, if_neg hc]
          have hra : rest.length ≤ a := by
            simp only [List.length_cons] at h1
            omega
          have hrb : rest.length ≤ b := by
            simp only [List.length_cons] at h2
            omega
          rw [ih b rest hra hrb]

theorem renderAux_splice (ctx : Value) (p rest : List Char) (hp : '}' ∉ p) :
    ∀ lit fuel, '{' ∉ lit →
      (lit ++ '{' :: '{' :: (p ++ '}' :: '}' :: rest)).length ≤ fuel →
      renderAux ctx fuel (lit ++ '{' :: '{' :: (p ++ '}' :: '}' :: rest)) =
        lit ++ (displayString (resolvePath ctx (trimStr (String.mk p)))).data
          ++ renderAux ctx (rest.length + 1) rest := by
  intro lit
  induction lit with
  | nil =>
    intro fuel _ hfuel
    simp only [List.nil_append, List.length_cons, List.length_append] at hfuel ⊢
    cases fuel with
    | zero => omega
    | succ f =>
      rw [renderAux.eq_def]
      dsimp only
      rw [if_pos ⟨rfl, rfl⟩]
      simp only [List.tail_cons]
      rw [splitTag_spec p rest hp]
      dsimp only
      rw [renderAux_fuel_stable ctx f (rest.length + 1) rest (by omega) (by omega)]
  | cons c lit' ih =>
    intro fuel hl hfuel
    have hc : c ≠ '{' := fun h => hl (h ▸ List.mem_cons_self c lit')
    have hl' : '{' ∉ lit' := fun h => hl (List.mem_cons_of_mem c h)
    simp only [List.cons_append, List.length_cons] at hfuel ⊢
    cases fuel with
    | zero => omega
    | succ f =>
      rw [renderAux.eq_def]
      dsimp only
      rw [if_neg (fun hand => hc hand.1)]
      rw [ih f hl' (by omega)]

theorem mustacheRender_splice (lit p rest : List Char) (ctx : Value)
    (hl : '{' ∉ lit) (hp : '}' ∉ p) :
    mustacheRender (String.mk (lit ++ '{' :: '{' :: (p ++ '}' :: '}' :: rest))) ctx =
      String.mk lit ++ displayString (resolvePath ctx (trimStr (String.mk p)))
        ++ mustacheRender (String.mk rest) ctx := by
  unfold mustacheRender
  rw [renderAux_splice ctx p rest hp lit _ hl (by simp)]
  rfl

theorem renderValueList_eq_map (xs : List Value) (ctx : Value) :
    renderValueList xs ctx = xs.map (fun v => renderValue v ctx) := by
  induction xs with
  | nil => rfl
  | cons v vs ih => simp [renderValueList, ih]

theorem renderValueFields_eq_map (kvs : List (String × Value)) (ctx : Value) :
    renderValueFields kvs ctx = kvs.map (fun kv => (kv.1, renderValue kv.2 ctx)) := by
  induction kvs with
  | nil => rfl
  | cons kv kvs ih =>
    obtain ⟨k, v⟩ := kv
    simp [renderValueFields, ih]

/-- Claim C4.  `renderValue` resolves a string that is entirely a single
interpolation expression to the referenced value with its native type
preserved; renders a string mixing literal text and expressions by
splicing each resolved value's string form into the surrounding text;
recurses into arrays and maps; and passes all other leaves through
unchanged.  In particular `renderValue("{{inputs.user}}", ctx)` with
`inputs.user = {name:"Alice"}` returns the object unchanged and
`renderValue("Hello {{inputs.user.name}}", ctx)` returns
`"Hello Alice"`. -/
theorem renderValue_spec :
    (∀ s c ctx, singleTagContent s = some c →
      renderValue (.vStr s) ctx = resolvePath ctx (trimStr c)) ∧
    (∀ s c, singleTagContent s = some c ↔
      (s = "\x7b\x7b" ++ c ++ "\x7d\x7d" ∧ c ≠ "" ∧ ¬ c.data.contains '}')) ∧
    (∀ s ctx, singleTagContent s = none →
      renderValue (.vStr s) ctx = .vStr (mustacheRender s ctx)) ∧
    (∀ lit p rest ctx, '{' ∉ lit → '}' ∉ p →
      mustacheRender (String.mk (lit ++ '{' :: '{' :: (p ++ '}' :: '}' :: rest))) ctx =
        String.mk lit ++ displayString (resolvePath ctx (trimStr (String.mk p)))
          ++ mustacheRender (String.mk rest) ctx) ∧
    (∀ xs ctx, renderValue (.vArr xs) ctx =
      .vArr (xs.map (fun v => renderValue v ctx))) ∧
    (∀ kvs ctx, renderValue (.vObj kvs) ctx =
      .vObj (kvs.map (fun kv => (kv.1, renderValue kv.2 ctx)))) ∧
    (∀ ctx b n, renderValue .vNull ctx = .vNull ∧
      renderValue .vUndefined ctx = .vUndefined ∧
      renderValue (.vBool b) ctx = .vBool b ∧
      renderValue (.vNum n) ctx = .vNum n) ∧
    (renderValue (.vStr "{{inputs.user}}")
        (buildTemplateContext [("user", .vObj [("name", .vStr "Alice")])] []) =
      .vObj [("name", .vStr "Alice")] ∧
     renderValue (.vStr "Hello {{inputs.user.name}}")
        (buildTemplateContext [("user", .vObj [("name", .vStr "Alice")])] []) =
      .vStr "Hello Alice") := by
  refine ⟨?_, singleTagContent_iff, ?_, ?_, ?_, ?_, ?_, ?_⟩
  · intro s c ctx h
    simp [renderValue, h]
  · intro s ctx h
    simp [renderValue, h]
  · exact fun lit p rest ctx hl hp => mustacheRender_splice lit p rest ctx hl hp
  · intro xs ctx
    simp [renderValue, renderValueList_eq_map]
  · intro kvs ctx
    simp [renderValue, renderValueFields_eq_map]
  · exact fun ctx b n => ⟨rfl, rfl, rfl, rfl⟩
  · exact ⟨rfl, rfl⟩

/-- Witness for C4: the single-tag clause applied at the concrete
example from the spec, discharging its hypothesis by evaluation. -/
theorem renderValue_spec_witness :
    renderValue (.vStr "{{inputs.user}}")
      (buildTemplateContext [("user", .vObj [("name", .vStr "Alice")])] []) =
      resolvePath (buildTemplateContext [("user", .vObj [("name", .vStr "Alice")])] [])
        (trimStr "inputs.user") :=
  renderValue_spec.1 "{{inputs.user}}" "inputs.user"
    (buildTemplateContext [("user", .vObj [("name", .vStr "Alice")])] []) rfl

/-! ### Signal machinery lemmas -/

theorem applySig_schedule (st : RunState) (e : Sig) :
    (applySig st e).schedule = st.schedule := by
  cases e <;> rfl

theorem applyBatch_schedule (st : RunState) (b : List Sig) :
    (applyBatch st b).schedule = st.schedule := by
  induction b generalizing st with
  | nil => rfl
  | cons e b ih =>
    show (applyBatch (applySig st e) b).schedule = _
    rw [ih, applySig_schedule]

theorem applySig_results (st : RunState) (e : Sig) :
    (applySig st e).results = st.results := by
  cases e <;> rfl

theorem applyBatch_results (st : RunState) (b : List Sig) :
    (applyBatch st b).results = st.results := by
  induction b generalizing st with
  | nil => rfl
  | cons e b ih =>
    show (applyBatch (applySig st e) b).results = _
    rw [ih, applySig_results]

theorem applyBatch_cancel_mono (st : RunState) (b : List Sig)
    (h : st.isCancelled = true) : (applyBatch st b).isCancelled = true := by
  induction b generalizing st with
  | nil => exact h
  | cons e b ih =>
    show (applyBatch (applySig st e) b).isCancelled = true
    refine ih _ ?_
    cases e <;> simp [applySig, h]

theorem applyBatch_cancel_of_mem (st : RunState) (b : List Sig)
    (h : Sig.cancel ∈ b) : (applyBatch st b).isCancelled = true := by
  induction b generalizing st with
  | nil => simp at h
  | cons e b ih =>
    show (applyBatch (applySig st e) b).isCancelled = true
    rcases List.mem_cons.mp h with he | hb
    · exact applyBatch_cancel_mono _ _ (by simp [← he, applySig])
    · exact ih _ hb

theorem applyBatch_cancel_of_none (st : RunState) (b : List Sig)
    (h : Sig.cancel ∉ b) : (applyBatch st b).isCancelled = st.isCancelled := by
  induction b generalizing st with
  | nil => rfl
  | cons e b ih =>
    show (applyBatch (applySig st e) b).isCancelled = _
    have he : e ≠ Sig.cancel := fun h' => h (h' ▸ List.mem_cons_self e b)
    have hb : Sig.cancel ∉ b := fun h' => h (List.mem_cons_of_mem e h')
    rw [ih _ hb]
    cases e with
    | cancel => exact absurd rfl he
    | deliver i p => rfl

theorem lastDeliveryTo_foldl (stepId : String) (b : List Sig)
    (acc : Option Value) :
    b.foldl (fun a e =>
      match e with
      | .deliver i p => if i = stepId then some p else a
      | .cancel => a) acc =
      match lastDeliveryTo b stepId with
      | some p => some p
      | none => acc := by
  induction b generalizing acc with
  | nil => rfl
  | cons e b ih =>
    show List.foldl _ _ b = _
    rw [ih]
    have hrhs : lastDeliveryTo (e :: b) stepId =
        match lastDeliveryTo b stepId with
        | some p => some p
        | none =>
            match e with
            | .deliver i p => if i = stepId then some p else none
            | .cancel => none := by
      show List.foldl _ _ b = _
      rw [ih]
    rw [hrhs]
    cases hb : lastDeliveryTo b stepId with
    | some p => rfl
    | none =>
      cases e with
      | cancel => rfl
      | deliver i p =>
        by_cases hi : i = stepId
        · simp [hi]
        · simp [hi]

theorem applyBatch_lookup (st : RunState) (b : List Sig) (stepId : String) :
    (applyBatch st b).signalResults.lookup stepId =
      match lastDeliveryTo b stepId with
      | some p => some p
      | none => st.signalResults.lookup stepId := by
  induction b generalizing st with
  | nil => rfl
  | cons e b ih =>
    show (applyBatch (applySig st e) b).signalResults.lookup stepId = _
    rw [ih]
    have hrhs : lastDeliveryTo (e :: b) stepId =
        match lastDeliveryTo b stepId with
        | some p => some p
        | none =>
            match e with
            | .deliver i p => if i = stepId then some p else none
            | .cancel => none := by
      show List.foldl _ _ b = _
      rw [lastDeliveryTo_foldl]
    rw [hrhs]
    cases hb : lastDeliveryTo b stepId with
    | some p => rfl
    | none =>
      cases e with
      | cancel => rfl
      | deliver i p =>
        by_cases hi : i = stepId
        · subst hi
          show (insertOrReplace st.signalResults i p).lookup i = _
          rw [lookup_insertOrReplace_self]
          simp
        · show (insertOrReplace st.signalResults i p).lookup stepId = _
          rw [lookup_insertOrReplace_other _ _ _ _ (fun h => hi h.symm)]
          simp [hi]

theorem signalWaitAux_fuel_stable (stepId : String) :
    ∀ f1 f2 st, st.schedule.length ≤ f1 → st.schedule.length ≤ f2 →
      signalWaitAux stepId f1 st = signalWaitAux stepId f2 st := by
  intro f1
  induction f1 with
  | zero =>
    intro f2 st h1 _
    have hs : st.schedule = [] := List.length_eq_zero.mp (Nat.le_zero.mp h1)
    unfold signalWaitAux
    rw [hs]
  | succ a ih =>
    intro f2 st h1 h2
    unfold signalWaitAux
    cases hs : st.schedule with
    | nil => dsimp only
    | cons b rest =>
      cases f2 with
      | zero =>
        rw [hs] at h2
        simp at h2
      | succ c =>
        dsimp only
        by_cases hcond : (st.isCancelled || (st.signalResults.lookup stepId).isSome) = true
        · rw [if_pos hcond, if_pos hcond]
        · rw [if_neg hcond, if_neg hcond]
          have hlen : (applyBatch { st with schedule := rest } b).schedule.length ≤ a := by
            rw [applyBatch_schedule]
            rw [hs] at h1
            simp only [List.length_cons] at h1
            simpa using Nat.le_of_succ_le_succ h1
          have hlen2 : (applyBatch { st with schedule := rest } b).schedule.length ≤ c := by
            rw [applyBatch_schedule]
            rw [hs] at h2
            simp only [List.length_cons] at h2
            simpa using Nat.le_of_succ_le_succ h2
          exact ih c _ hlen hlen2

theorem signalWait_immediate (stepId : String) (st : RunState)
    (hcond : (st.isCancelled || (st.signalResults.lookup stepId).isSome) = true) :
    signalWait stepId st = some st := by
  unfold signalWait signalWaitAux
  rw [if_pos hcond]

theorem signalWait_step (stepId : String) (st : RunState) (b : List Sig)
    (rest : List (List Sig)) (hs : st.schedule = b :: rest)
    (hcond : (st.isCancelled || (st.signalResults.lookup stepId).isSome) = false) :
    signalWait stepId st =
      signalWait stepId (applyBatch { st with schedule := rest } b) := by
  unfold signalWait
  rw [signalWaitAux.eq_def]
  dsimp only
  rw [if_neg (by rw [hcond]; exact Bool.false_ne_true)]
  rw [hs]
  dsimp only [List.length_cons]
  refine signalWaitAux_fuel_stable stepId _ _ _ ?_ ?_ <;>
    rw [applyBatch_schedule]

theorem lastDeliveryTo_none (b : List Sig) (stepId : String)
    (h : ∀ q, Sig.deliver stepId q ∉ b) : lastDeliveryTo b stepId = none := by
  induction b with
  | nil => rfl
  | cons e b ih =>
    have hacc : (match e with
        | Sig.deliver i p => if i = stepId then some p else (none : Option Value)
        | Sig.cancel => none) = none := by
      cases e with
      | cancel => rfl
      | deliver i p =>
        by_cases hi : i = stepId
        · subst hi
          exact absurd (List.mem_cons_self _ _) (h p)
        · simp [hi]
    show List.foldl _ _ b = none
    have : (match e with
        | Sig.deliver i p => if i = stepId then some p else (none : Option Value)
        | Sig.cancel => none) =
        ((fun a e => match e with
          | Sig.deliver i p => if i = stepId then some p else a
          | Sig.cancel => a) none e) := by
      cases e <;> rfl
    rw [← this, hacc] at *
    exact ih (fun q hq => h q (List.mem_cons_of_mem e hq))

theorem signalWait_wake (stepId : String) (b : List Sig) :
    ∀ bs1 (st : RunState) bs2,
      st.isCancelled = false →
      st.signalResults.lookup stepId = none →
      st.schedule = bs1 ++ b :: bs2 →
      (∀ b' ∈ bs1, Sig.cancel ∉ b' ∧ ∀ q, Sig.deliver stepId q ∉ b') →
      (Sig.cancel ∈ b ∨ (lastDeliveryTo b stepId).isSome = true) →
      ∃ st', signalWait stepId st = some st' ∧
        st'.signalResults.lookup stepId = lastDeliveryTo b stepId ∧
        (Sig.cancel ∈ b → st'.isCancelled = true) ∧
        (Sig.cancel ∉ b → st'.isCancelled = false) := by
  intro bs1
  induction bs1 with
  | nil =>
    intro st bs2 hcan hnone hs _ hwake
    have hcond : (st.isCancelled || (st.signalResults.lookup stepId).isSome) = false := by
      rw [hcan, hnone]
      rfl
    rw [signalWait_step stepId st b bs2 (by simpa using hs) hcond]
    set st2 := applyBatch { st with schedule := bs2 } b with hst2
    have hlook : st2.signalResults.lookup stepId = lastDeliveryTo b stepId := by
      rw [hst2, applyBatch_lookup]
      cases hldt : lastDeliveryTo b stepId with
      | some p => rfl
      | none => exact hnone
    have hcond2 : (st2.isCancelled || (st2.signalResults.lookup stepId).isSome) = true := by
      rcases hwake with hmem | hsome
      · rw [applyBatch_cancel_of_mem _ _ hmem]
        rfl
      · rw [hlook]
        rcases Option.isSome_iff_exists.mp hsome with ⟨p, hp⟩
        rw [hp]
        simp
    refine ⟨st2, signalWait_immediate stepId st2 hcond2, hlook, ?_, ?_⟩
    · intro hmem
      exact applyBatch_cancel_of_mem _ _ hmem
    · intro hmem
      rw [hst2, applyBatch_cancel_of_none _ _ hmem]
      exact hcan
  | cons b' bs1 ih =>
    intro st bs2 hcan hnone hs hirr hwake
    have hcond : (st.isCancelled || (st.signalResults.lookup stepId).isSome) = false := by
      rw [hcan, hnone]
      rfl
    rw [signalWait_step stepId st b' (bs1 ++ b :: bs2) (by simpa using hs) hcond]
    set st2 := applyBatch { st with schedule := bs1 ++ b :: bs2 } b' with hst2
    have hb' := hirr b' (List.mem_cons_self _ _)
    have hcan2 : st2.isCancelled = false := by
      rw [hst2, applyBatch_cancel_of_none _ _ hb'.1]
      exact hcan
    have hnone2 : st2.signalResults.lookup stepId = none := by
      rw [hst2, applyBatch_lookup, lastDeliveryTo_none b' stepId hb'.2]
      exact hnone
    exact ih st2 bs2 hcan2 hnone2 (by rw [hst2, applyBatch_schedule])
      (fun x hx => hirr x (List.mem_cons_of_mem _ hx)) hwake

/-! ### Claims C5, C7, C10: the signal race -/

/-- Claim C5.  A signal-kind step completes with exactly the delivered
payload when delivery precedes cancellation, and is skipped with the
fixed cancellation reason when cancellation fires before any payload
for its id is delivered. -/
theorem signalStep_race :
    (∀ (st : RunState) stepId p r0 bs1 bs2,
      st.isCancelled = false →
      st.signalResults.lookup stepId = none →
      st.schedule = bs1 ++ [Sig.deliver stepId p] :: bs2 →
      (∀ b' ∈ bs1, Sig.cancel ∉ b' ∧ ∀ q, Sig.deliver stepId q ∉ b') →
      ∃ st', executeSignalStep st stepId r0 =
        some (st', { r0 with output := some p })) ∧
    (∀ (st : RunState) stepId r0 bs1 b bs2,
      st.isCancelled = false →
      st.signalResults.lookup stepId = none →
      st.schedule = bs1 ++ b :: bs2 →
      (∀ b' ∈ bs1, Sig.cancel ∉ b' ∧ ∀ q, Sig.deliver stepId q ∉ b') →
      Sig.cancel ∈ b → (∀ q, Sig.deliver stepId q ∉ b) →
      ∃ st', executeSignalStep st stepId r0 =
        some (st', { r0 with status := .skipped, error := some cancelledReason })) := by
  constructor
  · intro st stepId p r0 bs1 bs2 hcan hnone hs hirr
    have hldt : lastDeliveryTo [Sig.deliver stepId p] stepId = some p := by
      show (if stepId = stepId then some p else none) = some p
      rw [if_pos rfl]
    obtain ⟨st', hwait, hlook, _, hncan⟩ :=
      signalWait_wake stepId [Sig.deliver stepId p] bs1 st bs2 hcan hnone hs hirr
        (Or.inr (by rw [hldt]; rfl))
    have hmem : Sig.cancel ∉ [Sig.deliver stepId p] := by
      intro hmem
      exact Sig.noConfusion (List.mem_singleton.mp hmem)
    refine ⟨st', ?_⟩
    unfold executeSignalStep
    rw [hwait]
    simp only [Option.map_some']
    rw [if_neg (fun hand => by rw [hncan hmem] at hand; exact absurd hand.1 (by simp))]
    rw [hlook, hldt]
  · intro st stepId r0 bs1 b bs2 hcan hnone hs hirr hmem hnodel
    obtain ⟨st', hwait, hlook, hcanT, _⟩ :=
      signalWait_wake stepId b bs1 st bs2 hcan hnone hs hirr (Or.inl hmem)
    refine ⟨st', ?_⟩
    unfold executeSignalStep
    rw [hwait]
    simp only [Option.map_some']
    rw [if_pos ⟨hcanT hmem, by rw [hlook, lastDeliveryTo_none b stepId hnodel]; rfl⟩]

/-- Witness for C5: both arms of the race instantiated on a concrete
waiting state, evaluated by the kernel. -/
theorem signalStep_race_witness :
    (∃ st', executeSignalStep ⟨[], [], false, [[Sig.deliver "s" (.vStr "hi")]]⟩ "s"
        (initResult "s") = some (st', { initResult "s" with output := some (.vStr "hi") })) ∧
    (∃ st', executeSignalStep ⟨[], [], false, [[Sig.cancel]]⟩ "s"
        (initResult "s") = some (st',
          { initResult "s" with
            status := .skipped
            error := some cancelledReason })) :=
  ⟨signalStep_race.1 ⟨[], [], false, [[Sig.deliver "s" (.vStr "hi")]]⟩ "s" (.vStr "hi")
      (initResult "s") [] [] rfl rfl rfl (by intro b' hb'; simp at hb'),
   signalStep_race.2 ⟨[], [], false, [[Sig.cancel]]⟩ "s" (initResult "s") [] [Sig.cancel] []
      rfl rfl rfl (by intro b' hb'; simp at hb') (List.mem_singleton.mpr rfl)
      (by intro q hq; exact Sig.noConfusion (List.mem_singleton.mp hq))⟩

/-- Claim C10.  When the wait of a signal step completes with the
cancellation flag set and a payload for the id already stored, the step
completes with that payload; the cancellation-skip branch is taken
exactly when cancellation is set and no payload for the id exists. -/
theorem signalStep_payload_beats_cancel :
    (∀ (st : RunState) stepId p r0,
      st.isCancelled = true →
      st.signalResults.lookup stepId = some p →
      executeSignalStep st stepId r0 = some (st, { r0 with output := some p })) ∧
    (∀ (st st' : RunState) stepId r0 r,
      r0.status = .completed →
      executeSignalStep st stepId r0 = some (st', r) →
      (r.status = .skipped ↔
        (st'.isCancelled = true ∧ st'.signalResults.lookup stepId = none))) := by
  constructor
  · intro st stepId p r0 hcan hlook
    unfold executeSignalStep
    rw [signalWait_immediate stepId st (by rw [hcan]; rfl)]
    simp only [Option.map_some']
    rw [if_neg (fun hand => by rw [hlook] at hand; exact absurd hand.2 (by simp))]
    rw [hlook]
  · intro st st' stepId r0 r h0 hexec
    unfold executeSignalStep at hexec
    cases hwait : signalWait stepId st with
    | none => rw [hwait] at hexec; exact absurd hexec (by simp)
    | some stw =>
      rw [hwait] at hexec
      simp only [Option.map_some', Option.some.injEq] at hexec
      by_cases hcond : stw.isCancelled = true ∧ (stw.signalResults.lookup stepId).isNone = true
      · rw [if_pos hcond] at hexec
        injection hexec with hst hr
        subst hst
        constructor
        · intro _
          exact ⟨hcond.1, Option.isNone_iff_eq_none.mp hcond.2⟩
        · intro _
          rw [← hr]
      · rw [if_neg hcond] at hexec
        injection hexec with hst hr
        subst hst
        constructor
        · intro hskip
          rw [← hr] at hskip
          simp only at hskip
          rw [h0] at hskip
          exact absurd hskip (by intro h; exact Status.noConfusion h)
        · intro ⟨c1, c2⟩
          exact absurd ⟨c1, Option.isNone_iff_eq_none.mpr c2⟩ hcond

/-- Witness for C10: a state with cancellation already set and a stored
payload still completes with the payload. -/
theorem signalStep_payload_beats_cancel_witness :
    executeSignalStep ⟨[], [("s", Value.vStr "hi")], true, []⟩ "s" (initResult "s") =
      some (⟨[], [("s", Value.vStr "hi")], true, []⟩,
        { initResult "s" with output := some (.vStr "hi") }) :=
  signalStep_payload_beats_cancel.1 ⟨[], [("s", Value.vStr "hi")], true, []⟩ "s"
    (.vStr "hi") (initResult "s") rfl rfl

/-- Counterexample to claim C7 as stated: a workflow with a single
signal step `s` where two payloads are delivered to `s` in the same
wake-up before the step consumes one; the step completes with the
second payload, not the first one delivered. -/
theorem signal_first_delivery_counterexample :
    execute [⟨"s", some .signal, none, none, [], none, none⟩] []
        [[Sig.deliver "s" (.vStr "p1"), Sig.deliver "s" (.vStr "p2")]]
        (fun _ => .ok .vNull) =
      .ok (some ([("s", ⟨"s", .completed, some (.vStr "p2"), none, 0⟩)],
        [("s", ⟨"s", .completed, some (.vStr "p2"), none, 0⟩)])) ∧
    Value.vStr "p2" ≠ Value.vStr "p1" := by
  refine ⟨rfl, ?_⟩
  intro h
  injection h with h1
  exact absurd h1 (by decide)

/-- Claim C7 as amended.  Each delivery overwrites the stored payload
for its step id, so the payload a signal step consumes is the one most
recently delivered when its wait completes: the step wakes at the first
wake-up carrying any payload for its id and consumes the last delivery
of that wake-up; payloads already stored when the wait starts are
likewise consumed in last-delivery-wins order. -/
theorem signal_last_delivery_consumed :
    (∀ (st : RunState) stepId r0 bs1 b bs2 p,
      st.isCancelled = false →
      st.signalResults.lookup stepId = none →
      st.schedule = bs1 ++ b :: bs2 →
      (∀ b' ∈ bs1, Sig.cancel ∉ b' ∧ ∀ q, Sig.deliver stepId q ∉ b') →
      Sig.cancel ∉ b →
      lastDeliveryTo b stepId = some p →
      ∃ st', executeSignalStep st stepId r0 =
        some (st', { r0 with output := some p })) ∧
    (∀ (st : RunState) stepId p r0,
      st.isCancelled = false →
      st.signalResults.lookup stepId = some p →
      executeSignalStep st stepId r0 = some (st, { r0 with output := some p })) := by
  constructor
  · intro st stepId r0 bs1 b bs2 p hcan hnone hs hirr hnocan hldt
    obtain ⟨st', hwait, hlook, _, hncan⟩ :=
      signalWait_wake stepId b bs1 st bs2 hcan hnone hs hirr
        (Or.inr (by rw [hldt]; rfl))
    refine ⟨st', ?_⟩
    unfold executeSignalStep
    rw [hwait]
    simp only [Option.map_some']
    rw [if_neg (fun hand => by rw [hncan hnocan] at hand; exact absurd hand.1 (by simp))]
    rw [hlook, hldt]
  · intro st stepId p r0 hcan hlook
    unfold executeSignalStep
    rw [signalWait_immediate stepId st (by rw [hcan, hlook]; rfl)]
    simp only [Option.map_some']
    rw [if_neg (fun hand => by rw [hlook] at hand; exact absurd hand.2 (by simp))]
    rw [hlook]

/-- Witness for the amended C7: two deliveries in one wake-up, the
second is consumed. -/
theorem signal_last_delivery_consumed_witness :
    ∃ st', executeSignalStep ⟨[], [], false,
        [[Sig.deliver "s" (.vStr "p1"), Sig.deliver "s" (.vStr "p2")]]⟩ "s"
        (initResult "s") = some (st', { initResult "s" with output := some (.vStr "p2") }) :=
  signal_last_delivery_consumed.1 ⟨[], [], false,
      [[Sig.deliver "s" (.vStr "p1"), Sig.deliver "s" (.vStr "p2")]]⟩ "s"
    (initResult "s") [] [Sig.deliver "s" (.vStr "p1"), Sig.deliver "s" (.vStr "p2")] []
    (.vStr "p2") rfl rfl rfl (by intro b' hb'; simp at hb')
    (by intro hmem
        rcases List.mem_cons.mp hmem with h | hmem
        · exact Sig.noConfusion h
        · exact Sig.noConfusion (List.mem_singleton.mp hmem))
    rfl

/-! ### Step execution case analysis -/

theorem signalWaitAux_results (stepId : String) :
    ∀ fuel (st st' : RunState), signalWaitAux stepId fuel st = some st' →
      st'.results = st.results := by
  intro fuel
  induction fuel with
  | zero =>
    intro st st' h
    unfold signalWaitAux at h
    split at h
    · exact congrArg RunState.results (Option.some.inj h).symm
    · cases hs : st.schedule with
      | nil => rw [hs] at h; simp at h
      | cons b rest => rw [hs] at h; simp at h
  | succ f ih =>
    intro st st' h
    unfold signalWaitAux at h
    split at h
    · exact congrArg RunState.results (Option.some.inj h).symm
    · cases hs : st.schedule with
      | nil => rw [hs] at h; simp at h
      | cons b rest =>
        rw [hs] at h
        dsimp only at h
        rw [ih _ _ h, applyBatch_results]

theorem signalWait_results (stepId : String) (st st' : RunState)
    (h : signalWait stepId st = some st') : st'.results = st.results :=
  signalWaitAux_results stepId _ st st' h

theorem executeSignalStep_results (st st' : RunState) (stepId : String)
    (r0 r : StepResult) (h : executeSignalStep st stepId r0 = some (st', r)) :
    st'.results = st.results := by
  unfold executeSignalStep at h
  cases hwait : signalWait stepId st with
  | none => rw [hwait] at h; exact absurd h (by simp)
  | some stw =>
    rw [hwait] at h
    simp only [Option.map_some', Option.some.injEq] at h
    split at h
    · injection h with hst _
      rw [← hst]
      exact signalWait_results stepId st stw hwait
    · injection h with hst _
      rw [← hst]
      exact signalWait_results stepId st stw hwait

theorem lookup_saveResult_self (st : RunState) (stepId : String) (r : StepResult) :
    (saveResult st stepId r).results.lookup stepId = some r :=
  lookup_insertOrReplace_self st.results stepId r

theorem lookup_saveResult_other (st : RunState) (stepId x : String)
    (r : StepResult) (hx : x ≠ stepId) :
    (saveResult st stepId r).results.lookup x = st.results.lookup x :=
  lookup_insertOrReplace_other st.results stepId x r hx

/-- Case analysis of one `executeStep` call: either the step id is
unknown and nothing happens, or exactly one result value `r` is saved
for the id — once for completed and failed outcomes and the signal
wait, twice (identically, by the early return plus the `finally` block)
for dependency- and condition-skips. -/
theorem execStep_cases (g : Dag) (oracle : Oracle) (inputs : List (String × Value))
    (st : RunState) (stepId : String) (st2 : RunState)
    (tr2 : List (String × StepResult))
    (h : execStep g oracle inputs st stepId = some (st2, tr2)) :
    (tr2 = [] ∧ st2 = st) ∨
    (∃ r, (tr2 = [(stepId, r)] ∨ (tr2 = [(stepId, r), (stepId, r)] ∧ r.status = .skipped)) ∧
      st2.results.lookup stepId = some r ∧
      (∀ x, x ≠ stepId → st2.results.lookup x = st.results.lookup x)) := by
  unfold execStep at h
  split at h
  · have hp := Option.some.inj h
    injection hp with h1 h2
    exact Or.inl ⟨h2.symm, h1.symm⟩
  · next step hstep =>
    dsimp only at h
    split at h
    · next e herr =>
      have hp := Option.some.inj h
      injection hp with h1 h2
      refine Or.inr ⟨_, Or.inl h2.symm, ?_, ?_⟩
      · rw [← h1]; exact lookup_saveResult_self ..
      · intro x hx
        rw [← h1]
        exact lookup_saveResult_other _ _ _ _ hx
    · next deps hdeps =>
      split at h
      · next reason hreason =>
        have hp := Option.some.inj h
        injection hp with h1 h2
        refine Or.inr ⟨_, Or.inr ⟨h2.symm, rfl⟩, ?_, ?_⟩
        · rw [← h1]; exact lookup_saveResult_self ..
        · intro x hx
          rw [← h1, lookup_saveResult_other _ _ _ _ hx,
            lookup_saveResult_other _ _ _ _ hx]
      · split at h
        · next reason hreason =>
          have hp := Option.some.inj h
          injection hp with h1 h2
          refine Or.inr ⟨_, Or.inr ⟨h2.symm, rfl⟩, ?_, ?_⟩
          · rw [← h1]; exact lookup_saveResult_self ..
          · intro x hx
            rw [← h1, lookup_saveResult_other _ _ _ _ hx,
              lookup_saveResult_other _ _ _ _ hx]
        · split at h
          · split at h
            · exact absurd h (by simp)
            · next st' r hsig =>
              have hp := Option.some.inj h
              injection hp with h1 h2
              refine Or.inr ⟨r, Or.inl h2.symm, ?_, ?_⟩
              · rw [← h1]; exact lookup_saveResult_self ..
              · intro x hx
                rw [← h1]
                show (saveResult st' stepId r).results.lookup x = _
                rw [lookup_saveResult_other _ _ _ _ hx,
                  executeSignalStep_results st st' stepId _ r hsig]
          · split at h
            · have hp := Option.some.inj h
              injection hp with h1 h2
              refine Or.inr ⟨_, Or.inl h2.symm, ?_, ?_⟩
              · rw [← h1]; exact lookup_saveResult_self ..
              · intro x hx
                rw [← h1]
                exact lookup_saveResult_other _ _ _ _ hx
            · split at h
              · have hp := Option.some.inj h
                injection hp with h1 h2
                refine Or.inr ⟨_, Or.inl h2.symm, ?_, ?_⟩
                · rw [← h1]; exact lookup_saveResult_self ..
                · intro x hx
                  rw [← h1]
                  exact lookup_saveResult_other _ _ _ _ hx
              · have hp := Option.some.inj h
                injection hp with h1 h2
                refine Or.inr ⟨_, Or.inl h2.symm, ?_, ?_⟩
                · rw [← h1]; exact lookup_saveResult_self ..
                · intro x hx
                  rw [← h1]
                  exact lookup_saveResult_other _ _ _ _ hx
          · split at h
            · have hp := Option.some.inj h
              injection hp with h1 h2
              refine Or.inr ⟨_, Or.inl h2.symm, ?_, ?_⟩
              · rw [← h1]; exact lookup_saveResult_self ..
              · intro x hx
                rw [← h1]
                exact lookup_saveResult_other _ _ _ _ hx
            · split at h
              · have hp := Option.some.inj h
                injection hp with h1 h2
                refine Or.inr ⟨_, Or.inl h2.symm, ?_, ?_⟩
                · rw [← h1]; exact lookup_saveResult_self ..
                · intro x hx
                  rw [← h1]
                  exact lookup_saveResult_other _ _ _ _ hx
              · have hp := Option.some.inj h
                injection hp with h1 h2
                refine Or.inr ⟨_, Or.inl h2.symm, ?_, ?_⟩
                · rw [← h1]; exact lookup_saveResult_self ..
                · intro x hx
                  rw [← h1]
                  exact lookup_saveResult_other _ _ _ _ hx

/-! ### Claim C1: dependency skip propagation -/

theorem checkDependencies_some (deps : List String)
    (results : List (String × StepResult)) (d : String) (rs : StepResult)
    (hd : d ∈ deps) (hrs : results.lookup d = some rs)
    (hbad : rs.status = .failed ∨ rs.status = .skipped) :
    ∃ d' rs', d' ∈ deps ∧ results.lookup d' = some rs' ∧
      (rs'.status = .failed ∨ rs'.status = .skipped) ∧
      checkDependencies deps results =
        some ("Skipped due to " ++ statusStr rs'.status ++ " dependency: " ++ d') := by
  have hpred : ∃ x ∈ deps, (fun depId =>
      match results.lookup depId with
      | some r => r.status == Status.failed || r.status == Status.skipped
      | none => false) x = true := by
    refine ⟨d, hd, ?_⟩
    show (match results.lookup d with
      | some r => r.status == Status.failed || r.status == Status.skipped
      | none => false) = true
    rw [hrs]
    rcases hbad with hb | hb <;> simp [hb]
  have hsome : (deps.find? (fun depId =>
      match results.lookup depId with
      | some r => r.status == Status.failed || r.status == Status.skipped
      | none => false)).isSome := List.find?_isSome.mpr hpred
  rcases Option.isSome_iff_exists.mp hsome with ⟨d', hfind⟩
  have hmem : d' ∈ deps := List.mem_of_find?_eq_some hfind
  have hpd' := List.find?_some hfind
  cases hlook : results.lookup d' with
  | none => rw [hlook] at hpd'; simp at hpd'
  | some rs' =>
    rw [hlook] at hpd'
    have hbad' : rs'.status = .failed ∨ rs'.status = .skipped := by
      rcases Bool.or_eq_true_iff.mp hpd' with hb | hb
      · exact Or.inl (by simpa using hb)
      · exact Or.inr (by simpa using hb)
    refine ⟨d', rs', hmem, hlook, hbad', ?_⟩
    unfold checkDependencies
    rw [hfind]
    dsimp only
    rw [hlook]
    rfl

theorem execStep_depSkip (g : Dag) (oracle : Oracle)
    (inputs : List (String × Value)) (st : RunState) (stepId : String)
    (step : Step) (deps : List String) (reason : String)
    (hget : getStep g stepId = some step)
    (hdeps : depsOf g stepId = .ok deps)
    (hcheck : checkDependencies deps st.results = some reason) :
    execStep g oracle inputs st stepId =
      some (saveResult (saveResult st stepId
          { initResult stepId with status := .skipped, error := some reason })
        stepId { initResult stepId with status := .skipped, error := some reason },
        [(stepId, { initResult stepId with status := .skipped, error := some reason }),
         (stepId, { initResult stepId with status := .skipped, error := some reason })]) := by
  unfold execStep
  rw [hget]
  dsimp only
  rw [hdeps]
  dsimp only
  rw [hcheck]

/-- Claim C1.  A step one of whose transitive dependencies holds a
failed or skipped result is itself skipped with a reason naming the
offending dependency and its status; nothing else of the step runs (the
rest of the run state is untouched and the outcome does not depend on
the invocation oracle).  In the chain a→b→c where a fails, b and c both
end skipped with reasons naming "a" and the status "failed". -/
theorem dependency_skip :
    (∀ g oracle (inputs : List (String × Value)) (st : RunState)
        stepId step deps d rs,
      getStep g stepId = some step →
      depsOf g stepId = .ok deps →
      d ∈ deps →
      st.results.lookup d = some rs →
      (rs.status = .failed ∨ rs.status = .skipped) →
      ∃ d' rs' st' tr,
        d' ∈ deps ∧ st.results.lookup d' = some rs' ∧
        (rs'.status = .failed ∨ rs'.status = .skipped) ∧
        execStep g oracle inputs st stepId = some (st', tr) ∧
        st'.results.lookup stepId = some
          ⟨stepId, .skipped, none,
            some ("Skipped due to " ++ statusStr rs'.status ++ " dependency: " ++ d'), 0⟩ ∧
        st'.signalResults = st.signalResults ∧
        st'.isCancelled = st.isCancelled ∧
        st'.schedule = st.schedule ∧
        (∀ oracle', execStep g oracle' inputs st stepId =
          execStep g oracle inputs st stepId)) ∧
    (execute [⟨"a", none, some "h", none, [], none, none⟩,
              ⟨"b", none, some "h", none, ["a"], none, none⟩,
              ⟨"c", none, some "h", none, ["b"], none, none⟩] [] []
        (fun sid => if sid = "a" then .error "boom" else .ok (.vStr "out")) =
      .ok (some ([
        ("a", ⟨"a", .failed, none, some "boom", 0⟩),
        ("b", ⟨"b", .skipped, none, some "Skipped due to failed dependency: a", 0⟩),
        ("c", ⟨"c", .skipped, none, some "Skipped due to failed dependency: a", 0⟩)],
        [("a", ⟨"a", .failed, none, some "boom", 0⟩),
         ("b", ⟨"b", .skipped, none, some "Skipped due to failed dependency: a", 0⟩),
         ("b", ⟨"b", .skipped, none, some "Skipped due to failed dependency: a", 0⟩),
         ("c", ⟨"c", .skipped, none, some "Skipped due to failed dependency: a", 0⟩),
         ("c", ⟨"c", .skipped, none, some "Skipped due to failed dependency: a", 0⟩)]))) := by
  constructor
  · intro g oracle inputs st stepId step deps d rs hget hdeps hd hrs hbad
    obtain ⟨d', rs', hmem, hlook, hbad', hcheck⟩ :=
      checkDependencies_some deps st.results d rs hd hrs hbad
    refine ⟨d', rs', _, _, hmem, hlook, hbad',
      execStep_depSkip g oracle inputs st stepId step deps _ hget hdeps hcheck,
      ?_, rfl, rfl, rfl, ?_⟩
    · exact lookup_saveResult_self ..
    · intro oracle'
      rw [execStep_depSkip g oracle' inputs st stepId step deps _ hget hdeps hcheck,
        execStep_depSkip g oracle inputs st stepId step deps _ hget hdeps hcheck]
  · rfl

/-- The three-step chain used as the concrete instance of C1. -/
def chainSteps : List Step :=
  [⟨"a", none, some "h", none, [], none, none⟩,
   ⟨"b", none, some "h", none, ["a"], none, none⟩,
   ⟨"c", none, some "h", none, ["b"], none, none⟩]

/-- The dependency graph of the chain. -/
def chainDag : Dag := (buildDag chainSteps).toOption.getD ⟨[], [], [], []⟩

/-- Witness for C1: the general skip rule applied inside the concrete
chain, at step "b" after "a" has failed. -/
theorem dependency_skip_witness :
    ∃ d' rs' st' tr,
      d' ∈ ["a"] ∧
      (⟨[("a", ⟨"a", .failed, none, some "boom", 0⟩)], [], false, []⟩ :
        RunState).results.lookup d' = some rs' ∧
      (rs'.status = .failed ∨ rs'.status = .skipped) ∧
      execStep chainDag (fun _ => .ok .vNull) []
        ⟨[("a", ⟨"a", .failed, none, some "boom", 0⟩)], [], false, []⟩ "b" =
        some (st', tr) ∧
      st'.results.lookup "b" = some
        ⟨"b", .skipped, none,
          some ("Skipped due to " ++ statusStr rs'.status ++ " dependency: " ++ d'), 0⟩ ∧
      st'.signalResults = [] ∧ st'.isCancelled = false ∧ st'.schedule = [] ∧
      (∀ oracle', execStep chainDag oracle' []
        ⟨[("a", ⟨"a", .failed, none, some "boom", 0⟩)], [], false, []⟩ "b" =
        execStep chainDag (fun _ => .ok .vNull) []
        ⟨[("a", ⟨"a", .failed, none, some "boom", 0⟩)], [], false, []⟩ "b") :=
  dependency_skip.1 chainDag _ _ _ "b" _ ["a"] "a" ⟨"a", .failed, none, some "boom", 0⟩
    rfl rfl (List.mem_singleton.mpr rfl) rfl (Or.inl rfl)

/-! ### Claim C6: cancellation stops the loop -/

theorem applyNextBatch_results (st : RunState) :
    (applyNextBatch st).results = st.results := by
  unfold applyNextBatch
  cases st.schedule with
  | nil => rfl
  | cons b rest => exact applyBatch_results _ _

/-- Claim C6.  When the cancellation flag is set at the top of a loop
iteration, the orchestrator stops before dispatching that step: it
returns the state as observed (whose result map is exactly the map
recorded so far) and appends nothing to the write trace; and the result
map only ever holds entries for ids the loop was given, so every id
after the break point has no entry at all. -/
theorem cancellation_stops_loop :
    (∀ g oracle (inputs : List (String × Value)) stepId rest (st : RunState) tr,
      (applyNextBatch st).isCancelled = true →
      runLoop g oracle inputs (stepId :: rest) st tr = some (applyNextBatch st, tr)) ∧
    (∀ st : RunState, (applyNextBatch st).results = st.results) ∧
    (∀ g oracle (inputs : List (String × Value)) ids (st : RunState) tr stF trF x,
      runLoop g oracle inputs ids st tr = some (stF, trF) →
      stF.results.lookup x ≠ none →
      st.results.lookup x ≠ none ∨ x ∈ ids) := by
  refine ⟨?_, applyNextBatch_results, ?_⟩
  · intro g oracle inputs stepId rest st tr h
    unfold runLoop
    dsimp only
    rw [if_pos h]
  · intro g oracle inputs ids
    induction ids with
    | nil =>
      intro st tr stF trF x h hlook
      unfold runLoop at h
      injection Option.some.inj h with h1 h2
      rw [← h1] at hlook
      exact Or.inl hlook
    | cons stepId rest ih =>
      intro st tr stF trF x h hlook
      unfold runLoop at h
      dsimp only at h
      split at h
      · injection Option.some.inj h with h1 h2
        rw [← h1, applyNextBatch_results] at hlook
        exact Or.inl hlook
      · split at h
        · exact absurd h (by simp)
        · next st2 tr2 hexec =>
          rcases ih _ _ _ _ _ h hlook with h2 | h2
          · rcases execStep_cases _ _ _ _ _ _ _ hexec with ⟨_, hst⟩ | ⟨r, _, _, hframe⟩
            · rw [hst, applyNextBatch_results] at h2
              exact Or.inl h2
            · by_cases hx : x = stepId
              · exact Or.inr (hx ▸ List.mem_cons_self _ _)
              · rw [hframe x hx, applyNextBatch_results] at h2
                exact Or.inl h2
          · exact Or.inr (List.mem_cons_of_mem _ h2)

/-- Witness for C6: a cancel event arriving before the first step of a
two-step workflow stops the loop with an empty result map. -/
theorem cancellation_stops_loop_witness :
    runLoop chainDag (fun _ => .ok .vNull) [] ["a", "b", "c"]
      ⟨[], [], false, [[Sig.cancel]]⟩ [] =
      some (applyNextBatch ⟨[], [], false, [[Sig.cancel]]⟩, []) :=
  cancellation_stops_loop.1 chainDag (fun _ => .ok .vNull) [] "a" ["b", "c"]
    ⟨[], [], false, [[Sig.cancel]]⟩ [] rfl

/-! ### Claim C8: result map writes -/

theorem filter_key_nil (l : List (String × StepResult)) (k : String)
    (h : ∀ e ∈ l, e.1 ≠ k) : l.filter (fun e => e.1 == k) = [] := by
  rw [List.filter_eq_nil_iff]
  intro e he
  simpa using h e he

/-- Claim C8 as amended.  Along any run: every write in the trace is
for an id the loop was given; ids outside the order keep their
entries untouched; and for every id in the order, all trace writes for
that id carry the identical result value, the final map entry equals
the first written value, the id is written at most twice, and a double
write happens only for skipped results (the dependency/condition skip
path saves once explicitly and once in the `finally` block). -/
theorem stepResult_writes :
    ∀ g oracle (inputs : List (String × Value)) ids (st : RunState) tr0 stF trF,
      ids.Nodup →
      (∀ id ∈ ids, st.results.lookup id = none) →
      runLoop g oracle inputs ids st tr0 = some (stF, trF) →
      ∃ Δ, trF = tr0 ++ Δ ∧
        (∀ e ∈ Δ, e.1 ∈ ids) ∧
        (∀ x, x ∉ ids → stF.results.lookup x = st.results.lookup x) ∧
        (∀ id ∈ ids,
          stF.results.lookup id =
            (Δ.filter (fun e => e.1 == id)).head?.map Prod.snd ∧
          (∀ e ∈ Δ, e.1 = id → ∀ e' ∈ Δ, e'.1 = id → e.2 = e'.2) ∧
          (Δ.filter (fun e => e.1 == id)).length ≤ 2 ∧
          ((Δ.filter (fun e => e.1 == id)).length = 2 →
            ∀ e ∈ Δ, e.1 = id → e.2.status = .skipped)) := by
  intro g oracle inputs ids
  induction ids with
  | nil =>
    intro st tr0 stF trF _ _ h
    unfold runLoop at h
    injection Option.some.inj h with h1 h2
    refine ⟨[], by simp [h2], by simp, ?_, by simp⟩
    intro x _
    rw [← h1]
  | cons stepId rest ih =>
    intro st tr0 stF trF hnd hnone h
    have hndr : rest.Nodup := (List.nodup_cons.mp hnd).2
    have hhead : stepId ∉ rest := (List.nodup_cons.mp hnd).1
    unfold runLoop at h
    dsimp only at h
    split at h
    · next hcan =>
      injection Option.some.inj h with h1 h2
      refine ⟨[], by simp [h2], by simp, ?_, ?_⟩
      · intro x _
        rw [← h1, applyNextBatch_results]
      · intro id hid
        refine ⟨?_, by simp, by simp, by simp⟩
        rw [← h1, applyNextBatch_results, hnone id hid]
        rfl
    · split at h
      · exact absurd h (by simp)
      · next st2 tr2 hexec =>
        have hcases := execStep_cases _ _ _ _ _ _ _ hexec
        have hnone2 : ∀ id ∈ rest, st2.results.lookup id = none := by
          intro id hid
          have hne2 : id ≠ stepId := fun he => hhead (by rw [← he]; exact hid)
          rcases hcases with ⟨_, hst⟩ | ⟨r, _, _, hframe⟩
          · rw [hst, applyNextBatch_results]
            exact hnone id (List.mem_cons_of_mem _ hid)
          · rw [hframe id hne2, applyNextBatch_results]
            exact hnone id (List.mem_cons_of_mem _ hid)
        obtain ⟨Δ', hΔtr, hΔkeys, hΔframe, hΔper⟩ := ih st2 (tr0 ++ tr2) stF trF hndr hnone2 h
        have htr2keys : ∀ e ∈ tr2, e.1 = stepId := by
          intro e he
          rcases hcases with ⟨htr, _⟩ | ⟨r, htr | ⟨htr, _⟩, _, _⟩
          · rw [htr] at he
            simp at he
          · rw [htr] at he
            rcases List.mem_singleton.mp he with rfl
            rfl
          · rw [htr] at he
            rcases List.mem_cons.mp he with rfl | he2
            · rfl
            · rcases List.mem_singleton.mp he2 with rfl
              rfl
        refine ⟨tr2 ++ Δ', by rw [hΔtr, List.append_assoc], ?_, ?_, ?_⟩
        · intro e he
          rcases List.mem_append.mp he with he | he
          · exact htr2keys e he ▸ List.mem_cons_self _ _
          · exact List.mem_cons_of_mem _ (hΔkeys e he)
        · intro x hx
          have hxr : x ∉ rest := fun hc => hx (List.mem_cons_of_mem _ hc)
          have hxs : x ≠ stepId := fun he => hx (he ▸ List.mem_cons_self _ _)
          rw [hΔframe x hxr]
          rcases hcases with ⟨_, hst⟩ | ⟨r, _, _, hframe⟩
          · rw [hst, applyNextBatch_results]
          · rw [hframe x hxs, applyNextBatch_results]
        · intro id hid
          rcases List.mem_cons.mp hid with rfl | hidr
          · -- the id processed in this iteration
            have hΔ'nil : Δ'.filter (fun e => e.1 == id) = [] :=
              filter_key_nil _ _ (fun e he hek =>
                hhead (hek ▸ hΔkeys e he))
            have hstF : stF.results.lookup id = st2.results.lookup id :=
              hΔframe id hhead
            rcases hcases with ⟨htr, hst⟩ | ⟨r, htr, hlook, hframe⟩
            · rw [htr]
              simp only [List.nil_append]
              refine ⟨?_, ?_, ?_, ?_⟩
              · rw [hΔ'nil, hstF, hst, applyNextBatch_results,
                  hnone id (List.mem_cons_self _ _)]
                rfl
              · intro e he hek e' he' hek'
                exact absurd (hΔkeys e he) (hek ▸ hhead)
              · rw [hΔ'nil]
                simp
              · rw [hΔ'nil]
                simp
            · have hfilt : (tr2 ++ Δ').filter (fun e => e.1 == id) = tr2 := by
                rw [List.filter_append, hΔ'nil, List.append_nil]
                rcases htr with htr | ⟨htr, _⟩ <;> rw [htr] <;> simp
              have hvals : ∀ e ∈ tr2 ++ Δ', e.1 = id → e.2 = r := by
                intro e he hek
                rcases List.mem_append.mp he with he | he
                · rcases htr with htr | ⟨htr, _⟩
                  · rw [htr] at he
                    rcases List.mem_singleton.mp he with rfl
                    rfl
                  · rw [htr] at he
                    rcases List.mem_cons.mp he with rfl | he2
                    · rfl
                    · rcases List.mem_singleton.mp he2 with rfl
                      rfl
                · exact absurd (hΔkeys e he) (hek ▸ hhead)
              refine ⟨?_, ?_, ?_, ?_⟩
              · rw [hfilt, hstF, hlook]
                rcases htr with htr | ⟨htr, _⟩ <;> rw [htr] <;> rfl
              · intro e he hek e' he' hek'
                rw [hvals e he hek, hvals e' he' hek']
              · rw [hfilt]
                rcases htr with htr | ⟨htr, _⟩ <;> rw [htr] <;> simp
              · rw [hfilt]
                intro hlen e he hek
                rcases htr with htr | ⟨htr, hskip⟩
                · rw [htr] at hlen
                  simp at hlen
                · rw [hvals e he hek, hskip]
          · -- an id processed later
            have hneq : id ≠ stepId := fun he => hhead (he ▸ hidr)
            have htr2nil : tr2.filter (fun e => e.1 == id) = [] :=
              filter_key_nil _ _ (fun e he hek => hneq (hek ▸ (htr2keys e he).symm ▸ rfl))
            obtain ⟨hb, hc, hd, he⟩ := hΔper id hidr
            rw [List.filter_append, htr2nil, List.nil_append]
            refine ⟨hb, ?_, hd, ?_⟩
            · intro e hem hek e' hem' hek'
              have hmem : e ∈ Δ' := by
                rcases List.mem_append.mp hem with h2 | h2
                · exact absurd (htr2keys e h2) (hek ▸ hneq)
                · exact h2
              have hmem' : e' ∈ Δ' := by
                rcases List.mem_append.mp hem' with h2 | h2
                · exact absurd (htr2keys e' h2) (hek' ▸ hneq)
                · exact h2
              exact hc e hmem hek e' hmem' hek'
            · intro hlen e hem hek
              have hmem : e ∈ Δ' := by
                rcases List.mem_append.mp hem with h2 | h2
                · exact absurd (htr2keys e h2) (hek ▸ hneq)
                · exact h2
              exact he hlen e hmem hek

/-- Counterexample to claim C8 as stated: in the chain run where "a"
fails and "b" is skipped, the trace of `saveResult` calls contains two
writes for "b" — the dependency-skip path saves the result explicitly
and the `finally` block saves it again — so "b" is not written exactly
once. -/
theorem stepResult_single_write_counterexample :
    execute chainSteps [] []
        (fun sid => if sid = "a" then .error "boom" else .ok (.vStr "out")) =
      .ok (some ([
        ("a", ⟨"a", .failed, none, some "boom", 0⟩),
        ("b", ⟨"b", .skipped, none, some "Skipped due to failed dependency: a", 0⟩),
        ("c", ⟨"c", .skipped, none, some "Skipped due to failed dependency: a", 0⟩)],
        [("a", ⟨"a", .failed, none, some "boom", 0⟩),
         ("b", ⟨"b", .skipped, none, some "Skipped due to failed dependency: a", 0⟩),
         ("b", ⟨"b", .skipped, none, some "Skipped due to failed dependency: a", 0⟩),
         ("c", ⟨"c", .skipped, none, some "Skipped due to failed dependency: a", 0⟩),
         ("c", ⟨"c", .skipped, none, some "Skipped due to failed dependency: a", 0⟩)])) ∧
    ([("a", (⟨"a", .failed, none, some "boom", 0⟩ : StepResult)),
      ("b", ⟨"b", .skipped, none, some "Skipped due to failed dependency: a", 0⟩),
      ("b", ⟨"b", .skipped, none, some "Skipped due to failed dependency: a", 0⟩),
      ("c", ⟨"c", .skipped, none, some "Skipped due to failed dependency: a", 0⟩),
      ("c", ⟨"c", .skipped, none, some "Skipped due to failed dependency: a", 0⟩)].filter
        (fun e => e.1 == "b")).length = 2 ∧ (2 : Nat) ≠ 1 :=
  ⟨rfl, rfl, by decide⟩

/-- Witness for the amended C8: the write-trace invariant instantiated
on the concrete chain run. -/
theorem stepResult_writes_witness :
    ∃ Δ, ([("a", (⟨"a", .failed, none, some "boom", 0⟩ : StepResult)),
      ("b", ⟨"b", .skipped, none, some "Skipped due to failed dependency: a", 0⟩),
      ("b", ⟨"b", .skipped, none, some "Skipped due to failed dependency: a", 0⟩),
      ("c", ⟨"c", .skipped, none, some "Skipped due to failed dependency: a", 0⟩),
      ("c", ⟨"c", .skipped, none, some "Skipped due to failed dependency: a", 0⟩)] :
        List (String × StepResult)) = [] ++ Δ ∧
      (∀ e ∈ Δ, e.1 ∈ ["a", "b", "c"]) ∧
      (∀ x, x ∉ ["a", "b", "c"] →
        (⟨[("a", ⟨"a", .failed, none, some "boom", 0⟩),
           ("b", ⟨"b", .skipped, none, some "Skipped due to failed dependency: a", 0⟩),
           ("c", ⟨"c", .skipped, none, some "Skipped due to failed dependency: a", 0⟩)],
          [], false, []⟩ : RunState).results.lookup x =
        (initState []).results.lookup x) ∧
      (∀ id ∈ ["a", "b", "c"],
        (⟨[("a", ⟨"a", .failed, none, some "boom", 0⟩),
           ("b", ⟨"b", .skipped, none, some "Skipped due to failed dependency: a", 0⟩),
           ("c", ⟨"c", .skipped, none, some "Skipped due to failed dependency: a", 0⟩)],
          [], false, []⟩ : RunState).results.lookup id =
          (Δ.filter (fun e => e.1 == id)).head?.map Prod.snd ∧
        (∀ e ∈ Δ, e.1 = id → ∀ e' ∈ Δ, e'.1 = id → e.2 = e'.2) ∧
        (Δ.filter (fun e => e.1 == id)).length ≤ 2 ∧
        ((Δ.filter (fun e => e.1 == id)).length = 2 →
          ∀ e ∈ Δ, e.1 = id → e.2.status = .skipped)) :=
  stepResult_writes chainDag
    (fun sid => if sid = "a" then .error "boom" else .ok (.vStr "out")) []
    ["a", "b", "c"] (initState []) []
    ⟨[("a", ⟨"a", .failed, none, some "boom", 0⟩),
      ("b", ⟨"b", .skipped, none, some "Skipped due to failed dependency: a", 0⟩),
      ("c", ⟨"c", .skipped, none, some "Skipped due to failed dependency: a", 0⟩)],
      [], false, []⟩
    [("a", ⟨"a", .failed, none, some "boom", 0⟩),
     ("b", ⟨"b", .skipped, none, some "Skipped due to failed dependency: a", 0⟩),
     ("b", ⟨"b", .skipped, none, some "Skipped due to failed dependency: a", 0⟩),
     ("c", ⟨"c", .skipped, none, some "Skipped due to failed dependency: a", 0⟩),
     ("c", ⟨"c", .skipped, none, some "Skipped due to failed dependency: a", 0⟩)]
    (by decide) (by intro id hid; rfl) rfl

/-! ### Depth-first search invariants -/

theorem visitMany_mono (g : Dag) :
    ∀ fuel inPath v acc work v' a',
      visitMany g fuel inPath v acc work = .ok v' a' →
      (∀ x ∈ v, x ∈ v') ∧ (∃ d, a' = acc ++ d) := by
  intro fuel
  induction fuel with
  | zero =>
    intro inPath v acc work v' a' h
    cases work with
    | nil =>
      injection h with h1 h2
      exact ⟨fun x hx => h1 ▸ hx, [], by rw [← h2, List.append_nil]⟩
    | cons n rest => exact absurd h (by simp [visitMany])
  | succ f ih =>
    intro inPath v acc work v' a' h
    cases work with
    | nil =>
      injection h with h1 h2
      exact ⟨fun x hx => h1 ▸ hx, [], by rw [← h2, List.append_nil]⟩
    | cons n rest =>
      unfold visitMany at h
      split at h
      · exact ih _ _ _ _ _ _ h
      · split at h
        · exact absurd h (by simp)
        · split at h
          · next v2 a2 hrec =>
            obtain ⟨hm1, d1, hd1⟩ := ih _ _ _ _ _ _ hrec
            obtain ⟨hm2, d2, hd2⟩ := ih _ _ _ _ _ _ h
            refine ⟨fun x hx => hm2 _ (List.mem_cons_of_mem _ (hm1 x hx)), ?_⟩
            exact ⟨d1 ++ [n] ++ d2, by rw [hd2, hd1]; simp⟩
          · next e hne =>
            exact absurd h (by cases e <;> simp_all)

theorem visitMany_work_visited (g : Dag) :
    ∀ fuel inPath v acc work v' a',
      visitMany g fuel inPath v acc work = .ok v' a' →
      ∀ x ∈ work, x ∈ v' := by
  intro fuel
  induction fuel with
  | zero =>
    intro inPath v acc work v' a' h x hx
    cases work with
    | nil => simp at hx
    | cons n rest => exact absurd h (by simp [visitMany])
  | succ f ih =>
    intro inPath v acc work v' a' h x hx
    cases work with
    | nil => simp at hx
    | cons n rest =>
      unfold visitMany at h
      split at h
      · next hv =>
        rcases List.mem_cons.mp hx with rfl | hx2
        · exact (visitMany_mono g _ _ _ _ _ _ _ h).1 x hv
        · exact ih _ _ _ _ _ _ h x hx2
      · split at h
        · exact absurd h (by simp)
        · split at h
          · next v2 a2 hrec =>
            rcases List.mem_cons.mp hx with rfl | hx2
            · exact (visitMany_mono g _ _ _ _ _ _ _ h).1 x (List.mem_cons_self _ _)
            · exact ih _ _ _ _ _ _ h x hx2
          · next e hne =>
            exact absurd h (by cases e <;> simp_all)

theorem visitMany_prov (g : Dag) (hg : ∀ m c, c ∈ outOf g m → c ∈ g.nodes) :
    ∀ fuel inPath v acc work v' a',
      (∀ x ∈ work, x ∈ g.nodes) →
      visitMany g fuel inPath v acc work = .ok v' a' →
      ∀ x ∈ v', x ∈ v ∨ (x ∉ inPath ∧ x ∈ g.nodes) := by
  intro fuel
  induction fuel with
  | zero =>
    intro inPath v acc work v' a' hw h x hx
    cases work with
    | nil =>
      injection h with h1 _
      exact Or.inl (h1 ▸ hx)
    | cons n rest => exact absurd h (by simp [visitMany])
  | succ f ih =>
    intro inPath v acc work v' a' hw h x hx
    cases work with
    | nil =>
      injection h with h1 _
      exact Or.inl (h1 ▸ hx)
    | cons n rest =>
      unfold visitMany at h
      split at h
      · exact ih _ _ _ _ _ _ (fun y hy => hw y (List.mem_cons_of_mem _ hy)) h x hx
      · split at h
        · exact absurd h (by simp)
        · next hnv hnp =>
          split at h
          · next v2 a2 hrec =>
            have hn : n ∈ g.nodes := hw n (List.mem_cons_self _ _)
            rcases ih _ _ _ _ _ _ (fun y hy => hw y (List.mem_cons_of_mem _ hy)) h x hx
              with hx2 | hres
            · rcases List.mem_cons.mp hx2 with rfl | hx3
              · exact Or.inr ⟨hnp, hn⟩
              · rcases ih _ _ _ _ _ _ (fun c hc => (hg n c hc)) hrec x hx3 with hx4 | hres2
                · exact Or.inl hx4
                · exact Or.inr ⟨fun hp => hres2.1 (List.mem_cons_of_mem _ hp), hres2.2⟩
            · exact Or.inr hres
          · next e hne =>
            exact absurd h (by cases e <;> simp_all)

theorem visitMany_sync (g : Dag) :
    ∀ fuel inPath v acc work v' a',
      (∀ x, x ∈ v ↔ x ∈ acc) →
      visitMany g fuel inPath v acc work = .ok v' a' →
      (∀ x, x ∈ v' ↔ x ∈ a') := by
  intro fuel
  induction fuel with
  | zero =>
    intro inPath v acc work v' a' hs h x
    cases work with
    | nil =>
      injection h with h1 h2
      rw [← h1, ← h2]
      exact hs x
    | cons n rest => exact absurd h (by simp [visitMany])
  | succ f ih =>
    intro inPath v acc work v' a' hs h x
    cases work with
    | nil =>
      injection h with h1 h2
      rw [← h1, ← h2]
      exact hs x
    | cons n rest =>
      unfold visitMany at h
      split at h
      · exact ih _ _ _ _ _ _ hs h x
      · split at h
        · exact absurd h (by simp)
        · split at h
          · next v2 a2 hrec =>
            have hs2 := ih _ _ _ _ _ _ hs hrec
            refine ih _ _ _ _ _ _ ?_ h x
            intro y
            constructor
            · intro hy
              rcases List.mem_cons.mp hy with rfl | hy2
              · simp
              · exact List.mem_append.mpr (Or.inl ((hs2 y).mp hy2))
            · intro hy
              rcases List.mem_append.mp hy with hy2 | hy2
              · exact List.mem_cons_of_mem _ ((hs2 y).mpr hy2)
              · rcases List.mem_singleton.mp hy2 with rfl
                exact List.mem_cons_self _ _
          · next e hne =>
            exact absurd h (by cases e <;> simp_all)

/-- Soundness of a post-order list: every node's outgoing edges lie
strictly before it. -/
def Sound (g : Dag) (acc : List String) : Prop :=
  ∀ l1 m l2, acc = l1 ++ m :: l2 → ∀ c ∈ outOf g m, c ∈ l1

theorem Sound_nil (g : Dag) : Sound g [] := by
  intro l1 m l2 h
  exact absurd h (by simp)

theorem Sound_append (g : Dag) (acc : List String) (n : String)
    (hs : Sound g acc) (hn : ∀ c ∈ outOf g n, c ∈ acc) :
    Sound g (acc ++ [n]) := by
  intro l1 m l2 h
  rcases List.eq_nil_or_concat l2 with rfl | ⟨l2', z, rfl⟩
  · have hrev := congrArg List.reverse h
    simp only [List.reverse_append, List.reverse_cons, List.reverse_nil,
      List.nil_append, List.singleton_append, List.cons.injEq] at hrev
    obtain ⟨rfl, hacc⟩ := hrev
    have : acc = l1 := by
      have := congrArg List.reverse hacc
      simpa using this
    exact this ▸ hn
  · have h2 : acc ++ [n] = (l1 ++ m :: l2') ++ [z] := by
      rw [h]
      simp
    have hrev := congrArg List.reverse h2
    simp only [List.reverse_append, List.reverse_cons, List.reverse_nil,
      List.nil_append, List.singleton_append, List.cons.injEq] at hrev
    obtain ⟨rfl, hacc⟩ := hrev
    have hacc2 : acc = l1 ++ m :: l2' := by
      have := congrArg List.reverse hacc
      simpa using this
    exact hs l1 m l2' hacc2

theorem visitMany_sound (g : Dag) :
    ∀ fuel inPath v acc work v' a',
      (∀ x, x ∈ v ↔ x ∈ acc) →
      Sound g acc →
      visitMany g fuel inPath v acc work = .ok v' a' →
      Sound g a' := by
  intro fuel
  induction fuel with
  | zero =>
    intro inPath v acc work v' a' hsync hsound h
    cases work with
    | nil =>
      injection h with _ h2
      exact h2 ▸ hsound
    | cons n rest => exact absurd h (by simp [visitMany])
  | succ f ih =>
    intro inPath v acc work v' a' hsync hsound h
    cases work with
    | nil =>
      injection h with _ h2
      exact h2 ▸ hsound
    | cons n rest =>
      unfold visitMany at h
      split at h
      · exact ih _ _ _ _ _ _ hsync hsound h
      · split at h
        · exact absurd h (by simp)
        · split at h
          · next v2 a2 hrec =>
            have hsync2 := visitMany_sync g _ _ _ _ _ _ _ hsync hrec
            have hsound2 := ih _ _ _ _ _ _ hsync hsound hrec
            have hchildren : ∀ c ∈ outOf g n, c ∈ a2 := fun c hc =>
              (hsync2 c).mp (visitMany_work_visited g _ _ _ _ _ _ _ hrec c hc)
            have hsync3 : ∀ x, x ∈ n :: v2 ↔ x ∈ a2 ++ [n] := by
              intro y
              constructor
              · intro hy
                rcases List.mem_cons.mp hy with rfl | hy2
                · simp
                · exact List.mem_append.mpr (Or.inl ((hsync2 y).mp hy2))
              · intro hy
                rcases List.mem_append.mp hy with hy2 | hy2
                · exact List.mem_cons_of_mem _ ((hsync2 y).mpr hy2)
                · rcases List.mem_singleton.mp hy2 with rfl
                  exact List.mem_cons_self _ _
            exact ih _ _ _ _ _ _ hsync3 (Sound_append g a2 n hsound2 hchildren) h
          · next e hne =>
            exact absurd h (by cases e <;> simp_all)

theorem visitMany_nodup (g : Dag) (hg : ∀ m c, c ∈ outOf g m → c ∈ g.nodes) :
    ∀ fuel inPath v acc work v' a',
      (∀ x ∈ work, x ∈ g.nodes) →
      (∀ x, x ∈ v ↔ x ∈ acc) →
      acc.Nodup →
      visitMany g fuel inPath v acc work = .ok v' a' →
      a'.Nodup := by
  intro fuel
  induction fuel with
  | zero =>
    intro inPath v acc work v' a' hw hsync hnd h
    cases work with
    | nil =>
      injection h with _ h2
      exact h2 ▸ hnd
    | cons n rest => exact absurd h (by simp [visitMany])
  | succ f ih =>
    intro inPath v acc work v' a' hw hsync hnd h
    cases work with
    | nil =>
      injection h with _ h2
      exact h2 ▸ hnd
    | cons n rest =>
      unfold visitMany at h
      split at h
      · exact ih _ _ _ _ _ _ (fun y hy => hw y (List.mem_cons_of_mem _ hy)) hsync hnd h
      · split at h
        · exact absurd h (by simp)
        · next hnv hnp =>
          split at h
          · next v2 a2 hrec =>
            have hsync2 := visitMany_sync g _ _ _ _ _ _ _ hsync hrec
            have hnd2 := ih _ _ _ _ _ _ (fun c hc => hg n c hc) hsync hnd hrec
            have hn2 : n ∉ v2 := by
              intro hn2
              rcases visitMany_prov g hg _ _ _ _ _ _ _ (fun c hc => hg n c hc) hrec n hn2
                with hx | hx
              · exact hnv hx
              · exact hx.1 (List.mem_cons_self _ _)
            have hna : n ∉ a2 := fun hna => hn2 ((hsync2 n).mpr hna)
            have hnd3 : (a2 ++ [n]).Nodup := by
              simp only [List.nodup_append, List.nodup_cons, List.nodup_nil]
              exact ⟨hnd2, by simp, by simpa using fun hc => hna hc⟩
            have hsync3 : ∀ x, x ∈ n :: v2 ↔ x ∈ a2 ++ [n] := by
              intro y
              constructor
              · intro hy
                rcases List.mem_cons.mp hy with rfl | hy2
                · simp
                · exact List.mem_append.mpr (Or.inl ((hsync2 y).mp hy2))
              · intro hy
                rcases List.mem_append.mp hy with hy2 | hy2
                · exact List.mem_cons_of_mem _ ((hsync2 y).mpr hy2)
                · rcases List.mem_singleton.mp hy2 with rfl
                  exact List.mem_cons_self _ _
            exact ih _ _ _ _ _ _
              (fun y hy => hw y (List.mem_cons_of_mem _ hy)) hsync3 hnd3 h
          · next e hne =>
            exact absurd h (by cases e <;> simp_all)

/-! ### Fuel sufficiency -/

theorem sum_filter_flip (f : String → Nat) (p q : String → Bool) (n : String) :
    ∀ l : List String, l.Nodup → n ∈ l →
      (∀ x, x ≠ n → p x = q x) → p n = true → q n = false →
      ((l.filter p).map f).sum = f n + ((l.filter q).map f).sum := by
  intro l
  induction l with
  | nil => intro _ h; simp at h
  | cons a l ih =>
    intro hnd hmem hpq hp hq
    rcases List.mem_cons.mp hmem with rfl | hmem2
    · have hfilt : l.filter p = l.filter q :=
        List.filter_congr (fun x hx => hpq x (fun he =>
          (List.nodup_cons.mp hnd).1 (he ▸ hx)))
      simp only [List.filter_cons, hp, hq, if_pos, if_neg]
      simp [hfilt]
    · have hne : a ≠ n := fun he => (List.nodup_cons.mp hnd).1 (he ▸ hmem2)
      have hrec := ih (List.nodup_cons.mp hnd).2 hmem2 hpq hp hq
      simp only [List.filter_cons]
      rw [hpq a hne]
      cases hqa : q a with
      | true =>
        simp only [hqa, if_true, List.map_cons, List.sum_cons, hrec]
        omega
      | false =>
        simpa [hqa] using hrec

theorem sublist_sum_le (l1 l2 : List Nat) (h : l1.Sublist l2) : l1.sum ≤ l2.sum := by
  induction h with
  | slnil => exact Nat.le_refl _
  | cons a _ ih => simp only [List.sum_cons]; omega
  | cons₂ a _ ih => simp only [List.sum_cons]; omega

theorem unseenWeight_mono (g : Dag) (v v2 p : List String)
    (hsub : ∀ x ∈ v, x ∈ v2) :
    unseenWeight g v2 p ≤ unseenWeight g v p := by
  unfold unseenWeight
  refine sublist_sum_le _ _ (List.Sublist.map _ ?_)
  refine List.monotone_filter_right _ ?_
  intro a ha
  simp only [decide_eq_true_eq] at ha ⊢
  exact ⟨fun hc => ha.1 (hsub a hc), ha.2⟩

theorem unseenWeight_path (g : Dag) (v p : List String) (n : String)
    (hnd : g.nodes.Nodup) (hn : n ∈ g.nodes) (hv : n ∉ v) (hp : n ∉ p) :
    unseenWeight g v p = 1 + (outOf g n).length + unseenWeight g v (n :: p) := by
  unfold unseenWeight
  rw [sum_filter_flip (fun m => 1 + (outOf g m).length)
    (fun x => decide (x ∉ v ∧ x ∉ p)) (fun x => decide (x ∉ v ∧ x ∉ n :: p)) n
    g.nodes hnd hn ?_ ?_ ?_]
  · intro x hx
    simp only [decide_eq_decide, List.mem_cons]
    tauto
  · simp [hv, hp]
  · simp

theorem unseenWeight_visit (g : Dag) (v p : List String) (n : String)
    (hnd : g.nodes.Nodup) (hn : n ∈ g.nodes) (hv : n ∉ v) (hp : n ∉ p) :
    unseenWeight g v p = 1 + (outOf g n).length + unseenWeight g (n :: v) p := by
  unfold unseenWeight
  rw [sum_filter_flip (fun m => 1 + (outOf g m).length)
    (fun x => decide (x ∉ v ∧ x ∉ p)) (fun x => decide (x ∉ n :: v ∧ x ∉ p)) n
    g.nodes hnd hn ?_ ?_ ?_]
  · intro x hx
    simp only [decide_eq_decide, List.mem_cons]
    tauto
  · simp [hv, hp]
  · simp

theorem visitMany_fuel (g : Dag) (hg : ∀ m c, c ∈ outOf g m → c ∈ g.nodes)
    (hnd : g.nodes.Nodup) :
    ∀ fuel inPath v acc work,
      (∀ x ∈ work, x ∈ g.nodes) →
      potential g v inPath work ≤ fuel + 1 →
      visitMany g fuel inPath v acc work ≠ .fuelOut := by
  intro fuel
  induction fuel with
  | zero =>
    intro inPath v acc work hw hpot
    cases work with
    | nil => simp [visitMany]
    | cons n rest =>
      unfold potential at hpot
      simp only [List.length_cons] at hpot
      omega
  | succ f ih =>
    intro inPath v acc work hw hpot
    cases work with
    | nil => simp [visitMany]
    | cons n rest =>
      unfold potential at hpot
      simp only [List.length_cons] at hpot
      unfold visitMany
      split
      · exact ih inPath v acc rest (fun x hx => hw x (List.mem_cons_of_mem _ hx))
          (by unfold potential; omega)
      · split
        · simp
        · next hnv hnp =>
          have hn : n ∈ g.nodes := hw n (List.mem_cons_self _ _)
          have epath := unseenWeight_path g v inPath n hnd hn hnv hnp
          cases hrec : visitMany g f (n :: inPath) v acc (outOf g n) with
          | fuelOut =>
            exact absurd hrec (ih (n :: inPath) v acc (outOf g n)
              (fun c hc => hg n c hc) (by unfold potential; omega))
          | cycle pth => simp
          | ok v2 a2 =>
            dsimp only
            have hsub := (visitMany_mono g _ _ _ _ _ _ _ hrec).1
            have evisit := unseenWeight_visit g v inPath n hnd hn hnv hnp
            have emono : unseenWeight g (n :: v2) inPath ≤
                unseenWeight g (n :: v) inPath :=
              unseenWeight_mono g _ _ _ (fun x hx => by
                rcases List.mem_cons.mp hx with rfl | hx2
                · exact List.mem_cons_self _ _
                · exact List.mem_cons_of_mem _ (hsub x hx2))
            exact ih inPath (n :: v2) (a2 ++ [n]) rest
              (fun x hx => hw x (List.mem_cons_of_mem _ hx))
              (by unfold potential; omega)

/-! ### No cycle error on acyclic graphs -/

theorem chain_transGen (E : String → String → Prop) :
    ∀ l1 (t : List String) (x n : String) (l2 : List String),
      List.Chain' E (x :: t) → x :: t = l1 ++ n :: l2 →
      x = n ∨ Relation.TransGen E x n := by
  intro l1
  induction l1 with
  | nil =>
    intro t x n l2 _ heq
    simp only [List.nil_append, List.cons.injEq] at heq
    exact Or.inl heq.1
  | cons a l1 ih =>
    intro t x n l2 hchain heq
    simp only [List.cons_append, List.cons.injEq] at heq
    obtain ⟨rfl, heq2⟩ := heq
    cases t with
    | nil => exact absurd heq2 (by simp)
    | cons y t2 =>
      have hE : E x y := (List.chain'_cons.mp hchain).1
      have hch2 : List.Chain' E (y :: t2) := (List.chain'_cons.mp hchain).2
      rcases ih t2 y n l2 hch2 heq2 with rfl | htg
      · exact Or.inr (Relation.TransGen.single hE)
      · exact Or.inr (Relation.TransGen.head hE htg)

theorem visitMany_nocycle (g : Dag) (hacyc : Acyclic g) :
    ∀ fuel inPath v acc work pth,
      List.Chain' (depEdge g) inPath →
      (∀ x ∈ work, ∀ h t, inPath = h :: t → depEdge g x h) →
      visitMany g fuel inPath v acc work ≠ .cycle pth := by
  intro fuel
  induction fuel with
  | zero =>
    intro inPath v acc work pth _ _
    cases work with
    | nil => simp [visitMany]
    | cons n rest => simp [visitMany]
  | succ f ih =>
    intro inPath v acc work pth hchain hconn
    cases work with
    | nil => simp [visitMany]
    | cons n rest =>
      unfold visitMany
      split
      · exact ih inPath v acc rest pth hchain
          (fun x hx => hconn x (List.mem_cons_of_mem _ hx))
      · split
        · next hnv hnp =>
          exfalso
          cases hpath : inPath with
          | nil => rw [hpath] at hnp; simp at hnp
          | cons hd tl =>
            have hEn : depEdge g n hd := hconn n (List.mem_cons_self _ _) hd tl hpath
            rw [hpath] at hnp
            obtain ⟨l1, l2, hsplit⟩ := List.append_of_mem hnp
            rw [hpath] at hchain
            rcases chain_transGen (depEdge g) l1 tl hd n l2 hchain hsplit
              with heq | htg
            · rw [heq] at hEn
              exact hacyc n (Relation.TransGen.single hEn)
            · exact hacyc n (Relation.TransGen.head hEn htg)
        · next hnv hnp =>
          cases hrec : visitMany g f (n :: inPath) v acc (outOf g n) with
          | fuelOut => simp
          | cycle pth2 =>
            exfalso
            refine ih (n :: inPath) v acc (outOf g n) pth2 ?_ ?_ hrec
            · refine List.chain'_cons'.mpr ⟨?_, hchain⟩
              intro y hy
              cases hp2 : inPath with
              | nil => rw [hp2] at hy; simp at hy
              | cons hd tl =>
                rw [hp2] at hy
                simp only [List.head?_cons, Option.mem_def, Option.some.injEq] at hy
                rw [← hy]
                exact hconn n (List.mem_cons_self _ _) hd tl hp2
            · intro c hc h t heq
              injection heq with h1 _
              rw [← h1]
              exact hc
          | ok v2 a2 =>
            dsimp only
            exact ih inPath (n :: v2) (a2 ++ [n]) rest pth hchain
              (fun x hx => hconn x (List.mem_cons_of_mem _ hx))

/-! ### Ordering consequences of soundness -/

theorem before_lt (acc : List String) (hnd : acc.Nodup) :
    ∀ l1 (m : String) l2 (a : String), acc = l1 ++ m :: l2 → a ∈ l1 →
      acc.indexOf a < acc.indexOf m := by
  induction acc with
  | nil =>
    intro l1 m l2 a heq ha
    exact absurd heq.symm (by simp)
  | cons x t ih =>
    intro l1 m l2 a heq ha
    cases l1 with
    | nil => simp at ha
    | cons y l1' =>
      simp only [List.cons_append, List.cons.injEq] at heq
      obtain ⟨rfl, heq2⟩ := heq
      have hxm : x ≠ m := by
        intro he
        have : m ∈ t := by
          rw [heq2]
          simp
        exact (List.nodup_cons.mp hnd).1 (he ▸ this)
      rcases List.mem_cons.mp ha with rfl | ha2
      · rw [List.indexOf_cons_self]
        rw [List.indexOf_cons_ne _ (by simpa using hxm)]
        omega
      · have hxa : x ≠ a := by
          intro he
          have : a ∈ t := by
            rw [heq2]
            exact List.mem_append.mpr (Or.inl ha2)
          exact (List.nodup_cons.mp hnd).1 (he ▸ this)
        rw [List.indexOf_cons_ne _ (by simpa using hxa),
          List.indexOf_cons_ne _ (by simpa using hxm)]
        have := ih (List.nodup_cons.mp hnd).2 l1' m l2 a heq2 ha2
        omega

theorem sound_ordering (g : Dag) (acc : List String) (hnd : acc.Nodup)
    (hsound : Sound g acc) :
    ∀ a b, Relation.TransGen (depEdge g) a b → b ∈ acc →
      a ∈ acc ∧ acc.indexOf a < acc.indexOf b := by
  intro a b htg
  induction htg with
  | single hab =>
    intro hb
    obtain ⟨l1, l2, hsplit⟩ := List.append_of_mem hb
    have ha : a ∈ l1 := hsound l1 _ l2 hsplit a hab
    exact ⟨hsplit ▸ List.mem_append.mpr (Or.inl ha),
      before_lt _ hnd l1 _ l2 a hsplit ha⟩
  | tail htg2 hlast ih =>
    intro hb
    obtain ⟨l1, l2, hsplit⟩ := List.append_of_mem hb
    have hc : _ ∈ l1 := hsound l1 _ l2 hsplit _ hlast
    have hcacc : _ ∈ acc := hsplit ▸ List.mem_append.mpr (Or.inl hc)
    have hlt1 := before_lt _ hnd l1 _ l2 _ hsplit hc
    obtain ⟨ha, hlt2⟩ := ih hcacc
    exact ⟨ha, Nat.lt_trans hlt2 hlt1⟩

/-! ### Well-formedness of the built graph -/

/-- Well-formedness invariants established by `buildDag`: node names are
unique, both edge maps have exactly the nodes as keys, outgoing edges
point at nodes, and the two edge maps are symmetric. -/
def DagWF (g : Dag) : Prop :=
  g.nodes.Nodup ∧
  g.outgoing.map Prod.fst = g.nodes ∧
  g.incoming.map Prod.fst = g.nodes ∧
  (∀ m c, c ∈ outOf g m → c ∈ g.nodes) ∧
  (∀ m n, m ∈ inOf g n ↔ n ∈ outOf g m)

theorem lookup_isSome_iff_mem_keys {α : Type _} (l : List (String × α))
    (k : String) : (l.lookup k).isSome ↔ k ∈ l.map Prod.fst := by
  induction l with
  | nil => simp
  | cons p rest ih =>
    by_cases hk : k = p.1
    · rw [lookup_cons_eq _ _ _ hk]
      simp [hk]
    · rw [lookup_cons_ne _ _ _ hk]
      simp only [List.map_cons, List.mem_cons]
      rw [ih]
      exact ⟨Or.inr, fun h => h.elim (fun he => absurd he hk) id⟩

theorem outOf_sources (g : Dag) (hkeys : g.outgoing.map Prod.fst = g.nodes)
    (m c : String) (hc : c ∈ outOf g m) : m ∈ g.nodes := by
  unfold outOf at hc
  cases hl : g.outgoing.lookup m with
  | none => rw [hl] at hc; simp at hc
  | some es =>
    rw [← hkeys]
    exact (lookup_isSome_iff_mem_keys _ _).mp (by rw [hl]; rfl)

theorem addNodes_spec :
    ∀ steps (g g' : Dag), addNodes steps g = .ok g' →
      g'.nodes = g.nodes ++ steps.map (·.id) ∧
      g'.outgoing = g.outgoing ++ steps.map (fun s => (s.id, [])) ∧
      g'.incoming = g.incoming ++ steps.map (fun s => (s.id, [])) ∧
      g'.data = g.data ++ steps.map (fun s => (s.id, s)) ∧
      (g.nodes.Nodup → g'.nodes.Nodup) := by
  intro steps
  induction steps with
  | nil =>
    intro g g' h
    injection h with h1
    rw [← h1]
    simp
  | cons s rest ih =>
    intro g g' h
    unfold addNodes at h
    split at h
    · exact absurd h (by simp)
    · next hmem =>
      obtain ⟨h1, h2, h3, h4, h5⟩ := ih _ _ h
      refine ⟨by simp [h1], by simp [h2], by simp [h3], by simp [h4], ?_⟩
      intro hnd
      refine h5 ?_
      simp only [List.nodup_append, List.nodup_cons, List.nodup_nil]
      refine ⟨hnd, by simp, ?_⟩
      intro x hx he
      rw [List.mem_singleton] at he
      exact hmem (he ▸ hx)

theorem lookup_const_nil (ids : List String) (k : String) :
    ((ids.map (fun n => (n, ([] : List String)))).lookup k) =
      if k ∈ ids then some [] else none := by
  induction ids with
  | nil => simp
  | cons a ids ih =>
    simp only [List.map_cons]
    by_cases hk : k = a
    · rw [lookup_cons_eq _ _ _ (by simpa using hk)]
      simp [hk]
    · rw [lookup_cons_ne _ _ _ (by simpa using hk)]
      rw [ih]
      by_cases hm : k ∈ ids
      · rw [if_pos hm, if_pos (List.mem_cons_of_mem _ hm)]
      · rw [if_neg hm, if_neg ?_]
        intro hmm
        rcases List.mem_cons.mp hmm with he | hmm2
        · exact hk he
        · exact hm hmm2

theorem pushEdge_keys (l : List (String × List String)) (k x : String) :
    (pushEdge l k x).map Prod.fst = l.map Prod.fst := by
  unfold pushEdge
  rw [List.map_map]
  refine List.map_congr_left ?_
  intro p _
  by_cases hk : p.1 = k
  · simp [hk]
  · simp [hk]

theorem lookup_pushEdge_self (l : List (String × List String)) (k x : String)
    (es : List String) (h : l.lookup k = some es) :
    (pushEdge l k x).lookup k = some (if x ∈ es then es else es ++ [x]) := by
  induction l with
  | nil => simp at h
  | cons p rest ih =>
    unfold pushEdge
    simp only [List.map_cons]
    by_cases hk : p.1 = k
    · rw [if_pos (by simp [hk])]
      rw [lookup_cons_eq _ _ _ hk.symm] at h
      injection h with h1
      refine (lookup_cons_eq (p.1, if x ∈ p.2 then p.2 else p.2 ++ [x]) _ k hk.symm).trans ?_
      rw [h1]
    · rw [if_neg (by simp [hk])]
      rw [lookup_cons_ne _ _ _ (fun he => hk he.symm)] at h
      rw [lookup_cons_ne _ _ _ (fun he => hk he.symm)]
      exact ih h

theorem lookup_pushEdge_other (l : List (String × List String)) (k x k' : String)
    (hne : k' ≠ k) : (pushEdge l k x).lookup k' = l.lookup k' := by
  induction l with
  | nil => rfl
  | cons p rest ih =>
    unfold pushEdge
    simp only [List.map_cons]
    by_cases hk : p.1 = k
    · rw [if_pos (by simp [hk])]
      rw [lookup_cons_ne _ _ _ (by simpa using fun he => hne (he.trans hk)),
        lookup_cons_ne _ _ _ (fun he => hne (he.trans hk))]
      exact ih
    · rw [if_neg (by simp [hk])]
      by_cases hk' : k' = p.1
      · rw [lookup_cons_eq _ _ _ hk', lookup_cons_eq _ _ _ hk']
      · rw [lookup_cons_ne _ _ _ hk', lookup_cons_ne _ _ _ hk']
        exact ih

theorem outOf_pushEdge_self (g : Dag) (out2 inc2 : List (String × List String))
    (k x : String) (es : List String) (h : g.outgoing.lookup k = some es)
    (hout : out2 = pushEdge g.outgoing k x) :
    outOf { g with outgoing := out2, incoming := inc2 } k =
      (if x ∈ es then es else es ++ [x]) := by
  unfold outOf
  simp only [hout]
  rw [lookup_pushEdge_self _ _ _ _ h]
  rfl

theorem outOf_pushEdge_other (g : Dag) (out2 inc2 : List (String × List String))
    (k x k' : String) (hne : k' ≠ k)
    (hout : out2 = pushEdge g.outgoing k x) :
    outOf { g with outgoing := out2, incoming := inc2 } k' = outOf g k' := by
  unfold outOf
  simp only [hout]
  rw [lookup_pushEdge_other _ _ _ _ hne]

theorem inOf_pushEdge_self (g : Dag) (out2 inc2 : List (String × List String))
    (k x : String) (es : List String) (h : g.incoming.lookup k = some es)
    (hinc : inc2 = pushEdge g.incoming k x) :
    inOf { g with outgoing := out2, incoming := inc2 } k =
      (if x ∈ es then es else es ++ [x]) := by
  unfold inOf
  simp only [hinc]
  rw [lookup_pushEdge_self _ _ _ _ h]
  rfl

theorem inOf_pushEdge_other (g : Dag) (out2 inc2 : List (String × List String))
    (k x k' : String) (hne : k' ≠ k)
    (hinc : inc2 = pushEdge g.incoming k x) :
    inOf { g with outgoing := out2, incoming := inc2 } k' = inOf g k' := by
  unfold inOf
  simp only [hinc]
  rw [lookup_pushEdge_other _ _ _ _ hne]

theorem mem_pushVal (es : List String) (x y : String) :
    (y ∈ (if x ∈ es then es else es ++ [x])) ↔ (y ∈ es ∨ y = x) := by
  split
  · next hx =>
    exact ⟨Or.inl, fun h => h.elim id (fun he => he ▸ hx)⟩
  · simp

theorem lookup_of_keys (l : List (String × List String)) (k : String)
    (hk : k ∈ l.map Prod.fst) : ∃ es, l.lookup k = some es := by
  have := (lookup_isSome_iff_mem_keys l k).mpr hk
  exact Option.isSome_iff_exists.mp this

theorem addEdgeList_wf :
    ∀ pairs (g g' : Dag),
      (∀ pr ∈ pairs, pr.1 ∈ g.nodes) →
      addEdgeList pairs g = .ok g' →
      DagWF g →
      DagWF g' ∧ g'.nodes = g.nodes ∧ g'.data = g.data := by
  intro pairs
  induction pairs with
  | nil =>
    intro g g' _ h hwf
    injection h with h1
    rw [← h1]
    exact ⟨hwf, rfl, rfl⟩
  | cons pr rest ih =>
    intro g g' hsrc h hwf
    obtain ⟨sid, dep⟩ := pr
    obtain ⟨hnd, hko, hki, hclosed, hsym⟩ := hwf
    unfold addEdgeList at h
    split at h
    · next hdep =>
      have hsid : sid ∈ g.nodes := hsrc (sid, dep) (List.mem_cons_self _ _)
      obtain ⟨eso, hlo⟩ := lookup_of_keys g.outgoing sid (by rw [hko]; exact hsid)
      obtain ⟨esi, hli⟩ := lookup_of_keys g.incoming dep (by rw [hki]; exact hdep)
      set g1 : Dag := { g with
        outgoing := pushEdge g.outgoing sid dep
        incoming := pushEdge g.incoming dep sid } with hg1
      have houtS : outOf g1 sid = (if dep ∈ eso then eso else eso ++ [dep]) :=
        outOf_pushEdge_self g _ _ sid dep eso hlo rfl
      have houtO : ∀ m, m ≠ sid → outOf g1 m = outOf g m := fun m hm =>
        outOf_pushEdge_other g _ _ sid dep m hm rfl
      have hinS : inOf g1 dep = (if sid ∈ esi then esi else esi ++ [sid]) :=
        inOf_pushEdge_self g _ _ dep sid esi hli rfl
      have hinO : ∀ n, n ≠ dep → inOf g1 n = inOf g n := fun n hn =>
        inOf_pushEdge_other g _ _ dep sid n hn rfl
      have hesoOut : outOf g sid = eso := by
        unfold outOf
        rw [hlo]
        rfl
      have hesiIn : inOf g dep = esi := by
        unfold inOf
        rw [hli]
        rfl
      have hwf1 : DagWF g1 := by
        refine ⟨hnd, ?_, ?_, ?_, ?_⟩
        · show (pushEdge g.outgoing sid dep).map Prod.fst = g.nodes
          rw [pushEdge_keys, hko]
        · show (pushEdge g.incoming dep sid).map Prod.fst = g.nodes
          rw [pushEdge_keys, hki]
        · intro m c hc
          by_cases hm : m = sid
          · rw [hm, houtS] at hc
            rcases (mem_pushVal eso dep c).mp hc with hc2 | rfl
            · exact hclosed sid c (by rw [hesoOut]; exact hc2)
            · exact hdep
          · rw [houtO m hm] at hc
            exact hclosed m c hc
        · intro m n
          by_cases hn : n = dep
          · subst hn
            by_cases hm : m = sid
            · rw [hm, hinS, houtS, mem_pushVal, mem_pushVal]
              constructor
              · intro _
                exact Or.inr rfl
              · intro _
                exact Or.inr rfl
            · rw [hinS, mem_pushVal, houtO m hm]
              constructor
              · intro hh
                rcases hh with hh | hh
                · exact (hsym m n).mp (by rw [hesiIn]; exact hh)
                · exact absurd hh hm
              · intro hh
                refine Or.inl ?_
                rw [← hesiIn]
                exact (hsym m n).mpr hh
          · rw [hinO n hn]
            by_cases hm : m = sid
            · rw [hm, houtS, mem_pushVal]
              constructor
              · intro hh
                exact Or.inl (by rw [← hesoOut]; exact (hsym sid n).mp (hm ▸ hh))
              · intro hh
                rcases hh with hh | hh
                · exact hm ▸ ((hsym sid n).mpr (by rw [hesoOut]; exact hh))
                · exact absurd hh hn
            · rw [houtO m hm]
              exact hsym m n
      have hrest : ∀ pr2 ∈ rest, pr2.1 ∈ g1.nodes := fun pr2 hpr2 =>
        hsrc pr2 (List.mem_cons_of_mem _ hpr2)
      obtain ⟨hwf', hn', hd'⟩ := ih g1 g' hrest h hwf1
      exact ⟨hwf', hn', hd'⟩
    · exact absurd h (by simp)

theorem buildDag_wf (steps : List Step) (g : Dag) (h : buildDag steps = .ok g) :
    DagWF g ∧ g.nodes = steps.map (·.id) := by
  unfold buildDag at h
  cases han : addNodes steps ⟨[], [], [], []⟩ with
  | error e =>
    rw [han] at h
    exact Except.noConfusion h
  | ok g1 =>
    rw [han] at h
    have h : addEdges steps g1 = .ok g := h
    obtain ⟨h1, h2, h3, _, h5⟩ := addNodes_spec steps _ g1 han
    simp only [List.nil_append] at h1 h2 h3
    have hmap : List.map (fun s : Step => (s.id, ([] : List String))) steps =
        List.map (fun n => (n, [])) (steps.map (·.id)) := by
      rw [List.map_map]
      rfl
    have hwf1 : DagWF g1 := by
      refine ⟨h5 List.nodup_nil, ?_, ?_, ?_, ?_⟩
      · rw [h2, h1, List.map_map]
        rfl
      · rw [h3, h1, List.map_map]
        rfl
      · intro m c hc
        exfalso
        unfold outOf at hc
        rw [h2, hmap, lookup_const_nil] at hc
        split at hc <;> simp_all
      · intro m n
        constructor
        · intro hm
          exfalso
          unfold inOf at hm
          rw [h3, hmap, lookup_const_nil] at hm
          split at hm <;> simp_all
        · intro hn
          exfalso
          unfold outOf at hn
          rw [h2, hmap, lookup_const_nil] at hn
          split at hn <;> simp_all
    have hsrc : ∀ pr ∈ steps.flatMap (fun s => s.dependsOn.map (fun d => (s.id, d))),
        pr.1 ∈ g1.nodes := by
      intro pr hpr
      rw [List.mem_flatMap] at hpr
      obtain ⟨s, hs, hpr2⟩ := hpr
      rw [List.mem_map] at hpr2
      obtain ⟨d, _, rfl⟩ := hpr2
      rw [h1]
      exact List.mem_map.mpr ⟨s, hs, rfl⟩
    obtain ⟨hwf, hnodes, _⟩ := addEdgeList_wf _ g1 g hsrc h hwf1
    exact ⟨hwf, by rw [hnodes, h1]⟩

theorem transGen_chain (g : Dag) (f : Nat → String)
    (hstep : ∀ i, depEdge g (f i) (f (i + 1))) :
    ∀ i j, i < j → Relation.TransGen (depEdge g) (f i) (f j) := by
  intro i j
  induction j with
  | zero => intro h; exact absurd h (by omega)
  | succ k ih =>
    intro hij
    rcases Nat.lt_or_ge i k with hik | hik
    · exact Relation.TransGen.tail (ih hik) (hstep k)
    · have : i = k := by omega
      rw [this]
      exact Relation.TransGen.single (hstep k)

theorem roots_cover (g : Dag) (hwf : DagWF g) (hacyc : Acyclic g)
    (V : String → Prop)
    (hroots : ∀ n ∈ g.nodes, inOf g n = [] → V n)
    (hclosed : ∀ m, V m → ∀ c ∈ outOf g m, V c) :
    ∀ n ∈ g.nodes, V n := by
  obtain ⟨hnd, hko, hki, hcl, hsym⟩ := hwf
  by_contra hcon
  push_neg at hcon
  obtain ⟨n0, hn0, hnV⟩ := hcon
  set next : String → String := fun s => (inOf g s).headD "" with hnext
  set f : Nat → String := fun i => next^[i] n0 with hf
  have hstep : ∀ i, f i ∈ g.nodes ∧ ¬ V (f i) → f (i + 1) ∈ g.nodes ∧
      ¬ V (f (i + 1)) ∧ depEdge g (f i) (f (i + 1)) := by
    intro i ⟨hmem, hv⟩
    have hroot : inOf g (f i) ≠ [] := fun he => hv (hroots _ hmem he)
    have hhd : (inOf g (f i)).headD "" ∈ inOf g (f i) := by
      cases hin : inOf g (f i) with
      | nil => exact absurd hin hroot
      | cons a t => simp [hin]
    have hf1 : f (i + 1) = (inOf g (f i)).headD "" := by
      rw [hf]
      simp only [Function.iterate_succ_apply']
    have hedge : f i ∈ outOf g (f (i + 1)) := by
      rw [hf1]
      exact (hsym _ _).mp hhd
    refine ⟨outOf_sources g hko _ _ hedge, ?_, hedge⟩
    intro hv1
    exact hv (hclosed _ hv1 _ hedge)
  have hall : ∀ i, f i ∈ g.nodes ∧ ¬ V (f i) := by
    intro i
    induction i with
    | zero => exact ⟨hn0, hnV⟩
    | succ k ihk =>
      obtain ⟨ha, hb, _⟩ := hstep k ihk
      exact ⟨ha, hb⟩
  have hedges : ∀ i, depEdge g (f i) (f (i + 1)) := fun i => (hstep i (hall i)).2.2
  have hmaps : ∀ i ∈ Finset.range (g.nodes.length + 1), f i ∈ g.nodes.toFinset :=
    fun i _ => List.mem_toFinset.mpr (hall i).1
  have hcard : g.nodes.toFinset.card < (Finset.range (g.nodes.length + 1)).card := by
    rw [Finset.card_range]
    have := List.toFinset_card_le g.nodes
    omega
  obtain ⟨i, hi, j, hj, hij, heq⟩ :=
    Finset.exists_ne_map_eq_of_card_lt_of_maps_to hcard hmaps
  rcases Nat.lt_or_ge i j with hlt | hge
  · exact hacyc (f i) (heq ▸ transGen_chain g f hedges i j hlt)
  · have hlt : j < i := by omega
    exact hacyc (f j) (heq ▸ transGen_chain g f hedges j i hlt)

theorem transGen_target_mem (g : Dag)
    (hko : g.outgoing.map Prod.fst = g.nodes) (d s : String)
    (h : Relation.TransGen (depEdge g) d s) : s ∈ g.nodes := by
  cases h with
  | single hds => exact outOf_sources g hko s d hds
  | tail _ hlast => exact outOf_sources g hko s _ hlast

theorem overallOrderE_ok_spec (g : Dag) (hwf : DagWF g) (hacyc : Acyclic g) :
    ∃ order, overallOrderE g = .ok order ∧ order.Nodup ∧
      (∀ x, x ∈ order ↔ x ∈ g.nodes) ∧
      (∀ d s, Relation.TransGen (depEdge g) d s →
        order.indexOf d < order.indexOf s) := by
  obtain ⟨hnd, hko, hki, hcl, hsym⟩ := hwf
  by_cases he : g.nodes.isEmpty
  · refine ⟨[], ?_, List.nodup_nil, ?_, ?_⟩
    · unfold overallOrderE
      rw [if_pos he]
    · intro x
      rw [List.isEmpty_iff] at he
      simp [he]
    · intro d s htg
      have := transGen_target_mem g hko d s htg
      rw [List.isEmpty_iff] at he
      rw [he] at this
      simp at this
  · cases hcp : visitMany g (dfsFuel g) [] [] [] g.nodes with
    | fuelOut =>
      exact absurd hcp (visitMany_fuel g hcl hnd _ [] [] [] g.nodes
        (fun x hx => hx) (Nat.le_succ _))
    | cycle p =>
      exact absurd hcp (visitMany_nocycle g hacyc _ [] [] [] g.nodes p
        List.chain'_nil (fun x _ h t hc => absurd hc (by simp)))
    | ok v0 a0 =>
      cases hmp : visitMany g (dfsFuel g) [] [] []
          (g.nodes.filter (fun n => (inOf g n).isEmpty)) with
      | fuelOut =>
        refine absurd hmp (visitMany_fuel g hcl hnd _ [] [] [] _
          (fun x hx => (List.mem_filter.mp hx).1) ?_)
        have hlen := List.length_filter_le
          (fun n => (inOf g n).isEmpty) g.nodes
        unfold dfsFuel potential
        omega
      | cycle p =>
        exact absurd hmp (visitMany_nocycle g hacyc _ [] [] [] _ p
          List.chain'_nil (fun x _ h t hc => absurd hc (by simp)))
      | ok v1 acc =>
        have hsync := visitMany_sync g _ [] [] [] _ _ _ (by simp) hmp
        have hsound := visitMany_sound g _ [] [] [] _ _ _ (by simp)
          (Sound_nil g) hmp
        have hnodup := visitMany_nodup g hcl _ [] [] [] _ _ _
          (fun x hx => (List.mem_filter.mp hx).1) (by simp)
          List.nodup_nil hmp
        have hprov := visitMany_prov g hcl _ [] [] [] _ _ _
          (fun x hx => (List.mem_filter.mp hx).1) hmp
        have hcover : ∀ n ∈ g.nodes, n ∈ v1 := by
          refine roots_cover g ⟨hnd, hko, hki, hcl, hsym⟩ hacyc
            (fun x => x ∈ v1) ?_ ?_
          · intro n hn hin
            refine visitMany_work_visited g _ [] [] [] _ _ _ hmp n ?_
            exact List.mem_filter.mpr ⟨hn, by simp [hin]⟩
          · intro m hm c hc
            have hma : m ∈ acc := (hsync m).mp hm
            obtain ⟨l1, l2, hsplit⟩ := List.append_of_mem hma
            have hcl1 : c ∈ l1 := hsound l1 m l2 hsplit c hc
            exact (hsync c).mpr (hsplit ▸ List.mem_append.mpr (Or.inl hcl1))
        have hiff : ∀ x, x ∈ acc ↔ x ∈ g.nodes := by
          intro x
          constructor
          · intro hx
            rcases hprov x ((hsync x).mpr hx) with h | h
            · simp at h
            · exact h.2
          · intro hx
            exact (hsync x).mp (hcover x hx)
        refine ⟨acc, ?_, hnodup, hiff, ?_⟩
        · unfold overallOrderE
          rw [if_neg he, hcp, hmp]
        · intro d s htg
          have hs : s ∈ acc := (hiff s).mpr (transGen_target_mem g hko d s htg)
          exact (sound_ordering g acc hnodup hsound d s htg hs).2

theorem acyclic_of_overallOrder_ok (g : Dag) (hwf : DagWF g)
    (order : List String) (h : overallOrderE g = .ok order) : Acyclic g := by
  obtain ⟨hnd, hko, hki, hcl, hsym⟩ := hwf
  intro n htg
  by_cases he : g.nodes.isEmpty
  · have := transGen_target_mem g hko n n htg
    rw [List.isEmpty_iff] at he
    rw [he] at this
    simp at this
  · unfold overallOrderE at h
    rw [if_neg he] at h
    cases hcp : visitMany g (dfsFuel g) [] [] [] g.nodes with
    | fuelOut => rw [hcp] at h; exact Except.noConfusion h
    | cycle p => rw [hcp] at h; exact Except.noConfusion h
    | ok v0 a0 =>
      have hsync := visitMany_sync g _ [] [] [] g.nodes _ _ (by simp) hcp
      have hsound := visitMany_sound g _ [] [] [] g.nodes _ _ (by simp)
        (Sound_nil g) hcp
      have hnodup := visitMany_nodup g hcl _ [] [] [] g.nodes _ _
        (fun x hx => hx) (by simp) List.nodup_nil hcp
      have hmem : n ∈ a0 := (hsync n).mp
        (visitMany_work_visited g _ [] [] [] g.nodes _ _ hcp n
          (transGen_target_mem g hko n n htg))
      have := (sound_ordering g a0 hnodup hsound n n htg hmem).2
      omega

theorem overallOrderE_error_cyclic (g : Dag) (e : GraphError)
    (h : overallOrderE g = .error e) : ∃ p, e = .cyclicDependency p := by
  unfold overallOrderE at h
  by_cases he : g.nodes.isEmpty
  · rw [if_pos he] at h
    exact Except.noConfusion h
  · rw [if_neg he] at h
    split at h
    · injection h with h2
      exact ⟨_, h2.symm⟩
    · injection h with h2
      exact ⟨_, h2.symm⟩
    · split at h
      · exact Except.noConfusion h
      · injection h with h2
        exact ⟨_, h2.symm⟩
      · injection h with h2
        exact ⟨_, h2.symm⟩

theorem addNodes_dup :
    ∀ (steps : List Step) (g : Dag), g.nodes.Nodup →
      ¬ (g.nodes ++ steps.map (·.id)).Nodup →
      ∃ i, addNodes steps g = .error (.duplicateStepId i) := by
  intro steps
  induction steps with
  | nil =>
    intro g hnd hdup
    exact absurd (by simpa using hnd) hdup
  | cons s rest ih =>
    intro g hnd hdup
    by_cases hmem : s.id ∈ g.nodes
    · exact ⟨s.id, by unfold addNodes; rw [if_pos hmem]⟩
    · have hnd' : (g.nodes ++ [s.id]).Nodup := by
        rw [List.nodup_append]
        refine ⟨hnd, List.nodup_singleton _, ?_⟩
        intro a ha hb
        rw [List.mem_singleton] at hb
        exact hmem (hb ▸ ha)
      have hdup' : ¬ ((g.nodes ++ [s.id]) ++ rest.map (·.id)).Nodup := by
        intro hc
        apply hdup
        simpa [List.append_assoc] using hc
      obtain ⟨i, hi⟩ := ih { nodes := g.nodes ++ [s.id], data := g.data ++ [(s.id, s)], outgoing := g.outgoing ++ [(s.id, [])], incoming := g.incoming ++ [(s.id, [])] } hnd' hdup'
      exact ⟨i, by unfold addNodes; rw [if_neg hmem]; exact hi⟩

theorem addNodes_ok_of_nodup :
    ∀ (steps : List Step) (g : Dag),
      (g.nodes ++ steps.map (·.id)).Nodup →
      ∃ g', addNodes steps g = .ok g' := by
  intro steps
  induction steps with
  | nil => intro g _; exact ⟨g, rfl⟩
  | cons s rest ih =>
    intro g hnd
    have hmem : s.id ∉ g.nodes := by
      intro h
      rw [List.map_cons, List.nodup_append] at hnd
      exact hnd.2.2 h (by simp)
    have hnd' : ((g.nodes ++ [s.id]) ++ rest.map (·.id)).Nodup := by
      simpa [List.append_assoc] using hnd
    obtain ⟨g', hg⟩ := ih { nodes := g.nodes ++ [s.id], data := g.data ++ [(s.id, s)], outgoing := g.outgoing ++ [(s.id, [])], incoming := g.incoming ++ [(s.id, [])] } hnd'
    exact ⟨g', by unfold addNodes; rw [if_neg hmem]; exact hg⟩

theorem addEdgeList_unknown :
    ∀ (pairs : List (String × String)) (g : Dag),
      (∃ pr ∈ pairs, pr.2 ∉ g.nodes) →
      ∃ a b, addEdgeList pairs g = .error (.unknownDependency a b) := by
  intro pairs
  induction pairs with
  | nil =>
    intro g h
    obtain ⟨pr, h1, _⟩ := h
    simp at h1
  | cons pr rest ih =>
    intro g h
    obtain ⟨sid, dep⟩ := pr
    by_cases hdep : dep ∈ g.nodes
    · obtain ⟨pr2, hpr2, hbad⟩ := h
      rcases List.mem_cons.mp hpr2 with rfl | hpr2'
      · exact absurd hdep hbad
      · obtain ⟨a, b, hrec⟩ := ih { g with outgoing := pushEdge g.outgoing sid dep, incoming := pushEdge g.incoming dep sid } ⟨pr2, hpr2', hbad⟩
        exact ⟨a, b, by unfold addEdgeList; rw [if_pos hdep]; exact hrec⟩
    · exact ⟨sid, dep, by unfold addEdgeList; rw [if_neg hdep]⟩

theorem buildDag_dup (steps : List Step)
    (hdup : ¬ (steps.map (·.id)).Nodup) :
    ∃ i, buildDag steps = .error (.duplicateStepId i) := by
  obtain ⟨i, hi⟩ := addNodes_dup steps ⟨[], [], [], []⟩ List.nodup_nil
    (by simpa using hdup)
  refine ⟨i, ?_⟩
  unfold buildDag
  rw [hi]
  rfl

theorem buildDag_unknown (steps : List Step)
    (hnd : (steps.map (·.id)).Nodup)
    (hbad : ∃ s ∈ steps, ∃ d ∈ s.dependsOn, d ∉ steps.map (·.id)) :
    ∃ a b, buildDag steps = .error (.unknownDependency a b) := by
  obtain ⟨g1, hg1⟩ := addNodes_ok_of_nodup steps ⟨[], [], [], []⟩
    (by simpa using hnd)
  have h1 : g1.nodes = steps.map (·.id) := by
    have := (addNodes_spec steps _ g1 hg1).1
    simpa using this
  obtain ⟨s, hs, d, hd, hdnot⟩ := hbad
  have hpair : (s.id, d) ∈
      steps.flatMap (fun s => s.dependsOn.map (fun d => (s.id, d))) :=
    List.mem_flatMap.mpr ⟨s, hs, List.mem_map.mpr ⟨d, hd, rfl⟩⟩
  have hnot : d ∉ g1.nodes := by rw [h1]; exact hdnot
  obtain ⟨a, b, hab⟩ := addEdgeList_unknown _ g1 ⟨(s.id, d), hpair, hnot⟩
  refine ⟨a, b, ?_⟩
  unfold buildDag
  rw [hg1]
  exact hab

theorem execute_buildDag_error (steps : List Step)
    (inputs : List (String × Value)) (schedule : List (List Sig))
    (oracle : Oracle) (e : GraphError) (h : buildDag steps = .error e) :
    execute steps inputs schedule oracle = .error e := by
  unfold execute
  rw [h]
  rfl

theorem execute_unfold (steps : List Step) (inputs : List (String × Value))
    (schedule : List (List Sig)) (oracle : Oracle) (g : Dag)
    (hb : buildDag steps = .ok g) :
    execute steps inputs schedule oracle =
      (overallOrderE g).bind (fun order =>
        pure ((runLoop g oracle inputs order (initState schedule) []).map
          (fun p => (p.1.results, p.2)))) := by
  unfold execute
  rw [hb]
  rfl

theorem execute_cyclic (steps : List Step) (inputs : List (String × Value))
    (schedule : List (List Sig)) (oracle : Oracle) (g : Dag)
    (hb : buildDag steps = .ok g) (hcyc : ¬ Acyclic g) :
    ∃ p, execute steps inputs schedule oracle =
      .error (.cyclicDependency p) := by
  have hwf := (buildDag_wf steps g hb).1
  cases ho : overallOrderE g with
  | ok order => exact absurd (acyclic_of_overallOrder_ok g hwf order ho) hcyc
  | error e =>
    obtain ⟨p, rfl⟩ := overallOrderE_error_cyclic g e ho
    refine ⟨p, ?_⟩
    rw [execute_unfold steps inputs schedule oracle g hb, ho]
    rfl

/-- Two steps sharing the id `"a"`: rejected by the first constructor
pass. -/
def dupSteps : List Step :=
  [⟨"a", none, some "h", none, [], none, none⟩,
   ⟨"a", none, some "h", none, [], none, none⟩]

/-- A step depending on the undeclared id `"zz"`: rejected by the
second constructor pass. -/
def unkSteps : List Step :=
  [⟨"a", none, some "h", none, ["zz"], none, none⟩]

/-- Two steps depending on each other: built, but rejected by the
topological sort before any step runs. -/
def cycSteps : List Step :=
  [⟨"a", none, some "h", none, ["b"], none, none⟩,
   ⟨"b", none, some "h", none, ["a"], none, none⟩]

/-- The (cyclic) dependency graph of `cycSteps`. -/
def cycDag : Dag := (buildDag cycSteps).toOption.getD ⟨[], [], [], []⟩

/-- An oracle that completes every activity with `null`. -/
def nullOracle : Oracle := fun _ => .ok .vNull

/-- C2: for every step list whose built dependency graph is acyclic,
`getExecutionOrder` (the library's `overallOrder`) succeeds and returns
a duplicate-free total order over exactly the declared step ids in
which every step appears after all of its transitive dependencies, and
the order is deterministic: any repeated call yields the same
sequence. -/
theorem executionOrder_topological (steps : List Step) (g : Dag)
    (hbuild : buildDag steps = .ok g) (hacyc : Acyclic g) :
    ∃ order, overallOrderE g = .ok order ∧ order.Nodup ∧
      (∀ sid, sid ∈ order ↔ sid ∈ steps.map (·.id)) ∧
      (∀ d s, Relation.TransGen (depEdge g) d s →
        order.indexOf d < order.indexOf s) ∧
      (∀ order2, overallOrderE g = .ok order2 → order2 = order) := by
  obtain ⟨hwf, hnodes⟩ := buildDag_wf steps g hbuild
  obtain ⟨order, ho, hnd, hiff, hord⟩ := overallOrderE_ok_spec g hwf hacyc
  refine ⟨order, ho, hnd, ?_, hord, ?_⟩
  · intro sid
    rw [hiff sid, hnodes]
  · intro order2 h2
    rw [ho] at h2
    exact (Except.ok.inj h2).symm

/-- Witness for C2 on the three-step chain `a ← b ← c`. -/
theorem executionOrder_topological_witness :
    ∃ order, overallOrderE chainDag = .ok order ∧ order.Nodup ∧
      (∀ sid, sid ∈ order ↔ sid ∈ chainSteps.map (·.id)) ∧
      (∀ d s, Relation.TransGen (depEdge chainDag) d s →
        order.indexOf d < order.indexOf s) ∧
      (∀ order2, overallOrderE chainDag = .ok order2 → order2 = order) :=
  executionOrder_topological chainSteps chainDag (by rfl)
    (acyclic_of_overallOrder_ok chainDag
      (buildDag_wf chainSteps chainDag (by rfl)).1
      ((overallOrderE chainDag).toOption.getD []) (by rfl))

/-- C9: graph construction and the run entry point detect each fatal
configuration error before any step executes, whatever the inputs, the
event schedule and the activity oracle: a duplicated step id fails
`buildDag` and `execute` with `duplicateStepId`; with distinct ids, a
`dependsOn` target naming no step fails both with `unknownDependency`;
and a graph that builds but is cyclic fails `execute` with
`cyclicDependency` — in every case `execute` returns the error, so the
run never starts. -/
theorem graph_errors_block_run (steps : List Step)
    (inputs : List (String × Value)) (schedule : List (List Sig))
    (oracle : Oracle) :
    (¬ (steps.map (·.id)).Nodup →
      ∃ i, buildDag steps = .error (.duplicateStepId i) ∧
        execute steps inputs schedule oracle = .error (.duplicateStepId i)) ∧
    ((steps.map (·.id)).Nodup →
      (∃ s ∈ steps, ∃ d ∈ s.dependsOn, d ∉ steps.map (·.id)) →
      ∃ a b, buildDag steps = .error (.unknownDependency a b) ∧
        execute steps inputs schedule oracle =
          .error (.unknownDependency a b)) ∧
    (∀ g, buildDag steps = .ok g → ¬ Acyclic g →
      ∃ p, execute steps inputs schedule oracle =
        .error (.cyclicDependency p)) := by
  refine ⟨?_, ?_, ?_⟩
  · intro hdup
    obtain ⟨i, hi⟩ := buildDag_dup steps hdup
    exact ⟨i, hi, execute_buildDag_error steps inputs schedule oracle _ hi⟩
  · intro hnd hbad
    obtain ⟨a, b, hab⟩ := buildDag_unknown steps hnd hbad
    exact ⟨a, b, hab,
      execute_buildDag_error steps inputs schedule oracle _ hab⟩
  · intro g hb hcyc
    exact execute_cyclic steps inputs schedule oracle g hb hcyc

/-- Witness for C9: a duplicate-id list, an unknown-dependency list and
a two-step cycle each produce the matching error. -/
theorem graph_errors_block_run_witness :
    (∃ i, buildDag dupSteps = .error (.duplicateStepId i) ∧
      execute dupSteps [] [] nullOracle = .error (.duplicateStepId i)) ∧
    (∃ a b, buildDag unkSteps = .error (.unknownDependency a b) ∧
      execute unkSteps [] [] nullOracle = .error (.unknownDependency a b)) ∧
    (∃ p, execute cycSteps [] [] nullOracle =
      .error (.cyclicDependency p)) :=
  ⟨(graph_errors_block_run dupSteps [] [] nullOracle).1 (by decide),
   (graph_errors_block_run unkSteps [] [] nullOracle).2.1 (by decide)
     (by decide),
   (graph_errors_block_run cycSteps [] [] nullOracle).2.2 cycDag (by rfl)
     (fun hacyc => hacyc "a"
       (Relation.TransGen.tail
         (Relation.TransGen.single (by decide : "a" ∈ outOf cycDag "b"))
         (by decide : "b" ∈ outOf cycDag "a")))⟩
end Krama
